import Mathlib

/-!
# Verification of the r3f-data-array-texture-lod tile cache and loading pipeline

Shallow embedding of the repository's core components:

* `SlotAllocator`   — src/SlotAllocator.js (layered atlas slot allocation)
* LOD selection     — src/tileWorker.js (`getTilePixelDensity`, `selectLod`)
* `TileDataStore`   — TileDataStore.js (per-(image, lod) entries, eviction)
* `TileLoaderPool`  — TileLoaderPool.js (`cancelPending`)
* `processTiles` / `loadImagesAtLod` completion — src/App.jsx
* `VisibilityChecker` — src/VisibilityChecker.js (constructor vs `updateRotations`)

JavaScript `Map`s are modelled as association lists in insertion order
(`Map` iteration order is insertion order); `Set`s of small integers are
modelled as `Finset Nat`.  JS string keys such as `` `${i}_${l}` `` and
`` `${i}_lod${l}_${tx}_${ty}` `` are injective encodings of tuples and are
modelled by the tuples themselves.
-/

namespace TileLod

/-! ## Association-list model of JavaScript `Map` -/

/-- `Map.get`: value of the first (and, for a real `Map`, only) entry with key `k`. -/
def mapGet {κ ν : Type} [DecidableEq κ] (m : List (κ × ν)) (k : κ) : Option ν :=
  (m.find? (fun e => e.1 = k)).map (·.2)

/-- `Map.set`: update the value in place if the key is present, else append. -/
def mapSet {κ ν : Type} [DecidableEq κ] (m : List (κ × ν)) (k : κ) (v : ν) : List (κ × ν) :=
  match m with
  | [] => [(k, v)]
  | e :: rest => if e.1 = k then (k, v) :: rest else e :: mapSet rest k v

/-- `Map.delete`: remove the entry with key `k` (keys of a `Map` are unique). -/
def mapDelete {κ ν : Type} [DecidableEq κ] (m : List (κ × ν)) (k : κ) : List (κ × ν) :=
  m.filter (fun e => e.1 ≠ k)

/-- `m.get(k)?.f(...)`: mutate the value stored under `k` in place, if present. -/
def mapUpdate {κ ν : Type} [DecidableEq κ] (m : List (κ × ν)) (k : κ) (f : ν → ν) :
    List (κ × ν) :=
  m.map (fun e => if e.1 = k then (e.1, f e.2) else e)

/-- `Map.has`. -/
def mapHas {κ ν : Type} [DecidableEq κ] (m : List (κ × ν)) (k : κ) : Bool :=
  (mapGet m k).isSome

/-! ## Slot Allocator — src/SlotAllocator.js -/

/-- A physical atlas position `{ layer, slotX, slotY }`. -/
structure Slot where
  layer : Nat
  slotX : Nat
  slotY : Nat
deriving DecidableEq, Repr

/-- State of a `SlotAllocator`.  `layerSlots[layer]` is the JS `Set` of used
slot indices in that layer; `usedSlots` is the JS `Map` from tile key to slot,
in insertion order.  The key type `κ` stands for the JS tile-key strings. -/
structure SlotAllocator (κ : Type) where
  maxLayers : Nat
  tilesPerRow : Nat
  layerSlots : List (Finset Nat)
  usedSlots : List (κ × Slot)

namespace SlotAllocator

variable {κ : Type} [DecidableEq κ]

/-- `this.tilesPerLayer = tilesPerRow * tilesPerRow`. -/
def tilesPerLayer (a : SlotAllocator κ) : Nat := a.tilesPerRow * a.tilesPerRow

/-- `new SlotAllocator(maxLayers, tilesPerRow)`. -/
def init (maxLayers tilesPerRow : Nat) : SlotAllocator κ :=
  { maxLayers := maxLayers
    tilesPerRow := tilesPerRow
    layerSlots := List.replicate maxLayers ∅
    usedSlots := [] }

/-- The slot corresponding to a free slot index found in a layer. -/
def slotOfIndex (a : SlotAllocator κ) (layer i : Nat) : Slot :=
  { layer := layer, slotX := i % a.tilesPerRow, slotY := i / a.tilesPerRow }

/-- `findFreeSlot()`: first layer with spare capacity, lowest free index in it.
Returns the slot together with its `slotIndex`. -/
def findFreeSlot (a : SlotAllocator κ) : Option (Slot × Nat) :=
  (List.range a.maxLayers).findSome? (fun layer =>
    let used := a.layerSlots.getD layer ∅
    if used.card < a.tilesPerLayer then
      ((List.range a.tilesPerLayer).find? (fun i => i ∉ used)).map
        (fun i => (a.slotOfIndex layer i, i))
    else none)

/-- `allocate(tileKey)`: idempotent on allocated keys; otherwise take the first
free slot, mark it used and record the mapping.  Returns the slot (or `none`
for `AtlasFull`) together with the updated allocator. -/
def allocate (a : SlotAllocator κ) (tileKey : κ) : Option Slot × SlotAllocator κ :=
  match mapGet a.usedSlots tileKey with
  | some s => (some s, a)
  | none =>
    match a.findFreeSlot with
    | none => (none, a)
    | some (s, i) =>
      (some s,
        { a with
          layerSlots := a.layerSlots.set s.layer (insert i (a.layerSlots.getD s.layer ∅))
          usedSlots := mapSet a.usedSlots tileKey s })

/-- `free(tileKey)`: no-op if absent, else release the slot index and the mapping. -/
def free (a : SlotAllocator κ) (tileKey : κ) : SlotAllocator κ :=
  match mapGet a.usedSlots tileKey with
  | none => a
  | some s =>
    let slotIndex := s.slotY * a.tilesPerRow + s.slotX
    { a with
      layerSlots := a.layerSlots.set s.layer ((a.layerSlots.getD s.layer ∅).erase slotIndex)
      usedSlots := mapDelete a.usedSlots tileKey }

/-- `has(tileKey)`. -/
def has (a : SlotAllocator κ) (tileKey : κ) : Bool :=
  mapHas a.usedSlots tileKey

/-- `getUsedCount()`: sum of the per-layer used-set sizes. -/
def getUsedCount (a : SlotAllocator κ) : Nat :=
  (a.layerSlots.map Finset.card).sum

/-- `getTotalSlots()`. -/
def getTotalSlots (a : SlotAllocator κ) : Nat :=
  a.maxLayers * a.tilesPerLayer

end SlotAllocator

/-! ## LOD selection — src/tileWorker.js

`Math.log2`/`Math.ceil` on the strictly-greater-than-one branch are modelled
exactly over `ℚ`: for `ratio > 1`, `Math.ceil(Math.log2(ratio))` is the least
`n` with `ratio ≤ 2 ^ n`, i.e. `Int.clog 2 ratio`. -/

/-- `getTilePixelDensity(lodLevel, tileSize, baseWorldSize)`. -/
def getTilePixelDensity (lodLevel : Nat) (tileSize baseWorldSize : ℚ) : ℚ :=
  tileSize * 2 ^ lodLevel / baseWorldSize

/-- `selectLod(screenPxPerUnit, tileSize, baseWorldSize, maxLod)`. -/
def selectLod (screenPxPerUnit tileSize baseWorldSize : ℚ) (maxLod : Nat) : Nat :=
  if screenPxPerUnit ≤ 0 then 0
  else
    let baseDensity := tileSize / baseWorldSize
    let ratio := screenPxPerUnit / baseDensity
    if ratio ≤ 1 then 0
    else min (Int.clog 2 ratio).toNat maxLod

/-! ## Tile keys and instances -/

/-- A tile key `` `${imageIndex}_lod${lodLevel}_${tx}_${ty}` `` (App.jsx,
`processTiles`), modelled as the tuple the string encodes. -/
structure TileKey where
  imageIndex : Nat
  lodLevel : Nat
  tx : Nat
  ty : Nat
deriving DecidableEq, Repr

/-- A renderable tile instance as pushed by `processTiles` (App.jsx). -/
structure TileInstance where
  slot : Slot
  worldX : ℚ
  worldY : ℚ
  tileWorldW : ℚ
  tileWorldH : ℚ
  rotation : ℚ
deriving DecidableEq, Repr

/-! ## Tile Data Store — TileDataStore.js -/

/-- State of a `TileDataStore`.  `loadingKeys` holds the keys
`` `${imageIndex}_${lodLevel}` `` of `loadingPromises` (the promise values are
irrelevant to the modelled behaviour; only key membership is ever tested). -/
structure TileDataStore where
  maxLod : Nat
  data : List (Nat × List (Nat × List TileInstance))
  tileKeys : List (Nat × List (Nat × List TileKey))
  loadingKeys : List (Nat × Nat)
  requestedLod : List (Nat × Nat)

namespace TileDataStore

/-- `new TileDataStore(maxLod)`. -/
def initStore (maxLod : Nat) : TileDataStore :=
  { maxLod := maxLod, data := [], tileKeys := [], loadingKeys := [], requestedLod := [] }

/-- `has(imageIndex, lodLevel)`: `this.data.get(imageIndex)?.has(lodLevel) ?? false`. -/
def has (st : TileDataStore) (imageIndex lodLevel : Nat) : Bool :=
  match mapGet st.data imageIndex with
  | some lodMap => mapHas lodMap lodLevel
  | none => false

/-- `get(imageIndex, lodLevel)`. -/
def get (st : TileDataStore) (imageIndex lodLevel : Nat) : Option (List TileInstance) :=
  (mapGet st.data imageIndex).bind (fun lodMap => mapGet lodMap lodLevel)

/-- `set(imageIndex, lodLevel, instances, tileKeyList)` (the tile-key list is
optional in the JS signature). -/
def set (st : TileDataStore) (imageIndex lodLevel : Nat) (instances : List TileInstance)
    (tileKeyList : Option (List TileKey)) : TileDataStore :=
  let dat := if mapHas st.data imageIndex then st.data else mapSet st.data imageIndex []
  let dat := mapUpdate dat imageIndex (fun m => mapSet m lodLevel instances)
  match tileKeyList with
  | some ks =>
    let tks := if mapHas st.tileKeys imageIndex then st.tileKeys else mapSet st.tileKeys imageIndex []
    let tks := mapUpdate tks imageIndex (fun m => mapSet m lodLevel ks)
    { st with data := dat, tileKeys := tks }
  | none => { st with data := dat }

/-- `isLoading(imageIndex, lodLevel)`. -/
def isLoading (st : TileDataStore) (imageIndex lodLevel : Nat) : Bool :=
  (imageIndex, lodLevel) ∈ st.loadingKeys

/-- `setRequestedLod(imageIndex, lodLevel)`. -/
def setRequestedLod (st : TileDataStore) (imageIndex lodLevel : Nat) : TileDataStore :=
  { st with requestedLod := mapSet st.requestedLod imageIndex lodLevel }

/-- `getRequestedLod(imageIndex)`: `this.requestedLod.get(imageIndex) ?? 0`. -/
def getRequestedLod (st : TileDataStore) (imageIndex : Nat) : Nat :=
  (mapGet st.requestedLod imageIndex).getD 0

/-- `getBestAvailableLod(imageIndex, targetLod)`: scan down from `targetLod`
to 0, then up from `targetLod + 1` to `maxLod`; `-1` if nothing is cached. -/
def getBestAvailableLod (st : TileDataStore) (imageIndex targetLod : Nat) : Int :=
  match (List.range (targetLod + 1)).reverse.find? (fun lod => st.has imageIndex lod) with
  | some lod => lod
  | none =>
    match (List.range' (targetLod + 1) (st.maxLod - targetLod)).find?
        (fun lod => st.has imageIndex lod) with
    | some lod => lod
    | none => -1

/-- An eviction candidate record built by `evictStale`. -/
structure Candidate where
  imageIndex : Nat
  lodLevel : Nat
  priority : Nat
  tileCount : Nat
  keys : Option (List TileKey)
deriving DecidableEq, Repr

/-- The candidate-building pass of `evictStale` (both nested `for` loops over
`this.data`, skipping rendered and loading pairs). -/
def buildCandidates (st : TileDataStore) (renderedSet : List (Nat × Nat))
    (visibleImages : List Nat) : List Candidate :=
  st.data.flatMap (fun ent =>
    ent.2.filterMap (fun lent =>
      let imageIndex := ent.1
      let lodLevel := lent.1
      if (imageIndex, lodLevel) ∈ renderedSet then none
      else if (imageIndex, lodLevel) ∈ st.loadingKeys then none
      else
        let isVisible := imageIndex ∈ visibleImages
        let isTargetLod := mapGet st.requestedLod imageIndex = some lodLevel
        let priority := if isVisible then 2 else if isTargetLod then 1 else 0
        let keys := (mapGet st.tileKeys imageIndex).bind (fun m => mapGet m lodLevel)
        some { imageIndex := imageIndex, lodLevel := lodLevel, priority := priority
               tileCount := (keys.map List.length).getD 0, keys := keys }))

/-- `for (const tileKey of keys) tileManager.freeTile(tileKey)`
(`TileManager.freeTile` delegates to `SlotAllocator.free`). -/
def freeKeys (tm : SlotAllocator TileKey) (ks : List TileKey) : SlotAllocator TileKey :=
  ks.foldl SlotAllocator.free tm

/-- Entry removal for one evicted candidate: delete the lod from `tileKeys`
(only when `keys` was truthy) and from `data`, then collapse an emptied
image-level entry. -/
def removeCandidate (st : TileDataStore) (c : Candidate) : TileDataStore :=
  let tks := match c.keys with
    | some _ => mapUpdate st.tileKeys c.imageIndex (fun m => mapDelete m c.lodLevel)
    | none => st.tileKeys
  let dat := mapUpdate st.data c.imageIndex (fun m => mapDelete m c.lodLevel)
  if (mapGet dat c.imageIndex).map List.length = some 0 then
    { st with data := mapDelete dat c.imageIndex, tileKeys := mapDelete tks c.imageIndex }
  else
    { st with data := dat, tileKeys := tks }

/-- The per-candidate atlas effect of the eviction loop:
`if (keys) for (const tileKey of keys) tileManager.freeTile(tileKey)`. -/
def freeCandidateKeys (tm : SlotAllocator TileKey) (c : Candidate) : SlotAllocator TileKey :=
  match c.keys with
  | some ks => freeKeys tm ks
  | none => tm

/-- The eviction loop of `evictStale`: stop when `currentFree ≥ targetFreeSlots`,
otherwise free the candidate's tile keys, remove its entry and track
`currentFree += tileCount`. -/
def evictLoop (targetFreeSlots : Nat) :
    List Candidate → TileDataStore → SlotAllocator TileKey → Nat →
    TileDataStore × SlotAllocator TileKey
  | [], st, tm, _ => (st, tm)
  | c :: cs, st, tm, currentFree =>
    if targetFreeSlots ≤ currentFree then (st, tm)
    else
      evictLoop targetFreeSlots cs (removeCandidate st c) (freeCandidateKeys tm c)
        (currentFree + c.tileCount)

/-- `evictStale(renderedSet, tileManager, visibleImages, targetFreeSlots)`.
The `tileManager` argument is represented by its slot allocator, the only part
`evictStale` interacts with (`freeTile`, `getTotalSlots`, `getUsedSlotCount`).
`Array.prototype.sort` with comparator `a.priority - b.priority` is a stable
ascending sort, i.e. `List.insertionSort` by `≤` on priorities. -/
def evictStale (st : TileDataStore) (renderedSet : List (Nat × Nat))
    (tileManager : SlotAllocator TileKey) (visibleImages : List Nat)
    (targetFreeSlots : Nat) : TileDataStore × SlotAllocator TileKey :=
  let candidates := buildCandidates st renderedSet visibleImages
  let sorted := candidates.insertionSort (fun a b => a.priority ≤ b.priority)
  let currentFree := tileManager.getTotalSlots - tileManager.getUsedCount
  evictLoop targetFreeSlots sorted st tileManager currentFree

end TileDataStore

/-! ## Tile Loader Pool — TileLoaderPool.js -/

/-- A queued decode task. -/
structure PoolTask where
  id : Nat
  imageIndex : Nat
  lodLevel : Nat
  priority : ℚ
deriving DecidableEq, Repr

/-- Pool state: the pending `queue` (sorted, highest priority first) and the
`active` map of tasks already posted to a worker. -/
structure TileLoaderPool where
  queue : List PoolTask
  active : List (Nat × PoolTask)

/-- The `for (const task of this.queue)` loop of `cancelPending`: returns the
kept tasks (in original order) and the rejected ones, each paired with the
message of the `Error` used to reject its promise. -/
def cancelLoop (imageIndex belowLod : Nat) :
    List PoolTask → List PoolTask × List (PoolTask × String)
  | [] => ([], [])
  | t :: rest =>
    let (kept, rejected) := cancelLoop imageIndex belowLod rest
    if t.imageIndex = imageIndex ∧ t.lodLevel < belowLod then
      (kept, (t, "cancelled") :: rejected)
    else
      (t :: kept, rejected)

/-- `cancelPending(imageIndex, belowLod)`: reject queued-but-not-dispatched
tasks for `imageIndex` strictly below `belowLod`; keep the rest as the new
queue.  Tasks in `active` are not touched. -/
def TileLoaderPool.cancelPending (p : TileLoaderPool) (imageIndex belowLod : Nat) :
    TileLoaderPool × List (PoolTask × String) :=
  let r := cancelLoop imageIndex belowLod p.queue
  ({ p with queue := r.1 }, r.2)

/-! ## Frame coordinator: `processTiles` and load completion — src/App.jsx

`Math.cos(rotation)`/`Math.sin(rotation)` are modelled by explicitly supplied
values `cosr`/`sinr` for the image's rotation angle. -/

/-- One element of the decode result's `tiles` array. -/
structure DecodeTileInfo where
  tx : Nat
  ty : Nat
  tileWorldW : ℚ
  tileWorldH : ℚ
deriving DecidableEq, Repr

/-- A completed decode result (the fields `processTiles` destructures; the
bitmaps carry no information relevant to slot accounting). -/
structure DecodeResult where
  imageIndex : Nat
  lodLevel : Nat
  tileWorldSize : ℚ
  tiles : List DecodeTileInfo

/-- The result record of `processTiles`. -/
structure ProcessedTiles where
  instances : List TileInstance
  tileKeyList : List TileKey
  complete : Bool
deriving DecidableEq, Repr

/-- The `for` loop of `processTiles`: upload each tile (`uploadTile` allocates
a slot via the allocator; the GPU upload itself has no slot-state effect), and
either push an instance and its key or mark the result incomplete. -/
def processLoop (imageIndex lodLevel : Nat)
    (scaledTileWorldSize imageX imageY rotation scale cosr sinr : ℚ) :
    List DecodeTileInfo → SlotAllocator TileKey → ProcessedTiles × SlotAllocator TileKey
  | [], tm => (⟨[], [], true⟩, tm)
  | t :: rest, tm =>
    let tileKey : TileKey := ⟨imageIndex, lodLevel, t.tx, t.ty⟩
    let r := tm.allocate tileKey
    let res := processLoop imageIndex lodLevel scaledTileWorldSize imageX imageY
        rotation scale cosr sinr rest r.2
    match r.1 with
    | some slot =>
      let scaledW := t.tileWorldW * scale
      let scaledH := t.tileWorldH * scale
      let localX := t.tx * scaledTileWorldSize + scaledW / 2
      let localY := -(t.ty * scaledTileWorldSize + scaledH / 2)
      let rotatedX := localX * cosr - localY * sinr
      let rotatedY := localX * sinr + localY * cosr
      let inst : TileInstance :=
        { slot := slot, worldX := imageX + rotatedX, worldY := imageY + rotatedY
          tileWorldW := scaledW, tileWorldH := scaledH, rotation := rotation }
      ({ instances := inst :: res.1.instances, tileKeyList := tileKey :: res.1.tileKeyList
         complete := res.1.complete }, res.2)
    | none =>
      ({ res.1 with complete := false }, res.2)

/-- `processTiles(data, tileManager)` given the image's pose
(`getImagePosition`, `imageRotations`, `imageScales`). -/
def processTiles (data : DecodeResult) (tm : SlotAllocator TileKey)
    (imageX imageY rotation scale cosr sinr : ℚ) :
    ProcessedTiles × SlotAllocator TileKey :=
  processLoop data.imageIndex data.lodLevel (data.tileWorldSize * scale)
    imageX imageY rotation scale cosr sinr data.tiles tm

/-- The completion step of `loadImagesAtLod` (App.jsx lines 399–407, and
identically 388–396 apart from the rebuild flag): store the entry when
`complete`, else free every allocated tile key and store nothing. -/
def applyLoadResult (st : TileDataStore) (tm : SlotAllocator TileKey)
    (data : DecodeResult) (imageX imageY rotation scale cosr sinr : ℚ) :
    TileDataStore × SlotAllocator TileKey :=
  let r := processTiles data tm imageX imageY rotation scale cosr sinr
  if r.1.complete then
    (st.set data.imageIndex data.lodLevel r.1.instances (some r.1.tileKeyList), r.2)
  else
    (st, r.1.tileKeyList.foldl SlotAllocator.free r.2)

/-! ## Visibility Checker — src/VisibilityChecker.js

`Math.cos`/`Math.sin` are modelled by an explicit trig oracle `cosFn`/`sinFn`
on rational angle values.  A plane's frustum-relevant state is its world
position and square geometry size (`PlaneGeometry(boundSize, boundSize)`
centred on the position yields the AABB with half-extent `boundSize / 2`). -/

/-- The AABB-determining state of one placeholder plane. -/
structure VCPlane where
  posX : ℚ
  posY : ℚ
  boundSize : ℚ
deriving DecidableEq, Repr

/-- `rotation !== 0 ? Math.abs(Math.sin(rotation)) + Math.abs(Math.cos(rotation)) : 1`. -/
def vcExpandFactor (cosFn sinFn : ℚ → ℚ) (rotation : ℚ) : ℚ :=
  if rotation ≠ 0 then |sinFn rotation| + |cosFn rotation| else 1

/-- The plane the `VisibilityChecker` constructor builds for image `i`. -/
def vcConstructorPlane (cosFn sinFn : ℚ → ℚ) (gridCols : Nat)
    (imageWorldSize gap : ℚ) (rotations scales : Option (List ℚ)) (i : Nat) : VCPlane :=
  let x : ℚ := (i % gridCols : Nat) * (imageWorldSize + gap)
  let y : ℚ := -((i / gridCols : Nat) * (imageWorldSize + gap))
  let rotation := match rotations with
    | some rs => rs.getD i 0
    | none => 0
  let scale := match scales with
    | some ss => ss.getD i 1
    | none => 1
  let contentSize := imageWorldSize * scale
  let expandFactor := vcExpandFactor cosFn sinFn rotation
  let boundSize := contentSize * expandFactor
  let halfSize := contentSize / 2
  let c := cosFn rotation
  let s := sinFn rotation
  let centerOffsetX := halfSize * c - (-halfSize) * s
  let centerOffsetY := halfSize * s + (-halfSize) * c
  { posX := x + centerOffsetX, posY := y + centerOffsetY, boundSize := boundSize }

/-- The effect of `updateRotations(rotations)` on plane `i`: the geometry is
replaced by `PlaneGeometry(boundSize, boundSize)` with
`boundSize = this.imageWorldSize * expandFactor`; the plane position is left
unchanged. -/
def vcUpdateRotationsPlane (cosFn sinFn : ℚ → ℚ) (imageWorldSize : ℚ)
    (rotations : Option (List ℚ)) (old : VCPlane) (i : Nat) : VCPlane :=
  let rotation := match rotations with
    | some rs => rs.getD i 0
    | none => 0
  let expandFactor := vcExpandFactor cosFn sinFn rotation
  { old with boundSize := imageWorldSize * expandFactor }

/-! ## Lemmas: ceiling log base 2 over `ℚ` -/

/-- `Int.clog` is invariant under the cast `ℚ → ℝ`. -/
theorem clog_ratCast_real (q : ℚ) (hq : 0 < q) : Int.clog 2 (q : ℝ) = Int.clog 2 q := by
  have h2 : (1 : ℕ) < 2 := one_lt_two
  have hq' : (0 : ℝ) < (q : ℝ) := by exact_mod_cast hq
  apply le_antisymm
  · rw [← Int.le_zpow_iff_clog_le h2 hq']
    have h := Int.self_le_zpow_clog h2 q
    have h' : ((q : ℚ) : ℝ) ≤ ((((2 : ℕ) : ℚ) : ℝ)) ^ Int.clog 2 q := by
      rw [← Rat.cast_zpow]
      exact_mod_cast h
    simpa using h'
  · rw [← Int.le_zpow_iff_clog_le h2 hq]
    have h := Int.self_le_zpow_clog h2 (q : ℝ)
    have h' : ((q : ℚ) : ℝ) ≤ ((((2 : ℕ) : ℚ) : ℝ)) ^ Int.clog 2 (q : ℝ) := by
      simpa using h
    rw [← Rat.cast_zpow] at h'
    exact_mod_cast h'

/-- For a positive rational, `Math.ceil(Math.log2(q))` is `Int.clog 2 q`. -/
theorem ceil_logb_ratCast (q : ℚ) (hq : 0 < q) : ⌈Real.logb 2 (q : ℝ)⌉ = Int.clog 2 q := by
  have hq' : (0 : ℝ) ≤ (q : ℝ) := by exact_mod_cast hq.le
  have h := @Real.ceil_logb_natCast 2 (q : ℝ) hq'
  simpa using h.trans (clog_ratCast_real q hq)

/-- For `1 < q`, `Int.clog 2 q` is positive. -/
theorem clog_pos_of_one_lt (q : ℚ) (hq : 1 < q) : 0 < Int.clog 2 q := by
  have h2 : (1 : ℕ) < 2 := one_lt_two
  rw [← Int.zpow_lt_iff_lt_clog h2 (zero_lt_one.trans hq)]
  simpa using hq

/-- Characterisation of `Int.clog 2` by a power-of-two bracket. -/
theorem clog2_eq (q : ℚ) (n : ℤ) (hq : 0 < q) (hlow : (((2:ℕ)):ℚ) ^ (n - 1) < q)
    (hhigh : q ≤ (((2:ℕ)):ℚ) ^ n) : Int.clog 2 q = n := by
  apply le_antisymm
  · exact (Int.le_zpow_iff_clog_le one_lt_two hq).mp hhigh
  · have h := (Int.zpow_lt_iff_lt_clog one_lt_two hq).mp hlow
    omega

/-- Characterisation of `Nat.clog 2` by a power-of-two bracket. -/
theorem nat_clog2_eq (m n : Nat) (hlow : 2 ^ (n - 1) < m) (hhigh : m ≤ 2 ^ n) :
    Nat.clog 2 m = n := by
  apply le_antisymm
  · exact (Nat.le_pow_iff_clog_le one_lt_two).mp hhigh
  · have h := (Nat.pow_lt_iff_lt_clog one_lt_two).mp hlow
    omega

/-! ## Claim C3 — `selectLod` -/

/-- The branch structure of `selectLod`, with the ceiling-log branch stated
through the real logarithm. -/
theorem selectLod_general (screenPxPerUnit tileSize baseWorldSize : ℚ) (maxLod : Nat)
    (htile : 0 < tileSize) (hbase : 0 < baseWorldSize) :
    (screenPxPerUnit ≤ 0 → selectLod screenPxPerUnit tileSize baseWorldSize maxLod = 0) ∧
    (screenPxPerUnit / (tileSize / baseWorldSize) ≤ 1 →
      selectLod screenPxPerUnit tileSize baseWorldSize maxLod = 0) ∧
    (1 < screenPxPerUnit / (tileSize / baseWorldSize) →
      (selectLod screenPxPerUnit tileSize baseWorldSize maxLod : ℤ)
        = min (maxLod : ℤ)
            ⌈Real.logb 2 ((screenPxPerUnit / (tileSize / baseWorldSize) : ℚ) : ℝ)⌉) := by
  set ratio := screenPxPerUnit / (tileSize / baseWorldSize) with hratio
  refine ⟨fun h => by simp [selectLod, h], fun h => ?_, fun h => ?_⟩
  · by_cases h0 : screenPxPerUnit ≤ 0
    · simp [selectLod, h0]
    · simp [selectLod, h0, ← hratio, h]
  · have hbd : 0 < tileSize / baseWorldSize := div_pos htile hbase
    have hs : 0 < screenPxPerUnit := by
      by_contra hc
      push_neg at hc
      have hr : ratio ≤ 0 := div_nonpos_of_nonpos_of_nonneg hc hbd.le
      linarith
    have hr0 : 0 < ratio := lt_trans zero_lt_one h
    rw [ceil_logb_ratCast _ hr0]
    have hc1 : 0 < Int.clog 2 ratio := clog_pos_of_one_lt _ h
    simp only [selectLod, not_le.mpr hs, if_false, ← hratio, not_le.mpr h, if_false]
    push_cast [Int.toNat_of_nonneg hc1.le]
    omega

/-- The six concrete values of the spec's sharpness scenario. -/
theorem selectLod_concrete :
    selectLod 64 256 4 4 = 0 ∧ selectLod 65 256 4 4 = 1 ∧ selectLod 128 256 4 4 = 1 ∧
    selectLod 129 256 4 4 = 2 ∧ selectLod 1024 256 4 4 = 4 ∧ selectLod 5000 256 4 4 = 4 := by
  have h65 : Int.clog 2 ((65:ℚ) / 64) = 1 := by
    apply clog2_eq _ 1 (by norm_num) (by norm_num) (by norm_num)
  have h128 : Nat.clog 2 2 = 1 := nat_clog2_eq 2 1 (by norm_num) (by norm_num)
  have h129 : Int.clog 2 ((129:ℚ) / 64) = 2 := by
    apply clog2_eq _ 2 (by norm_num) (by norm_num) (by norm_num)
  have h1024 : Nat.clog 2 16 = 4 := nat_clog2_eq 16 4 (by norm_num) (by norm_num)
  have h5000 : Int.clog 2 ((625:ℚ) / 8) = 7 := by
    apply clog2_eq _ 7 (by norm_num) (by norm_num) (by norm_num)
  refine ⟨by norm_num [selectLod], ?_, ?_, ?_, ?_, ?_⟩
  · norm_num [selectLod, h65]
  · norm_num [selectLod, h128]
  · norm_num [selectLod, h129]
    rfl
  · norm_num [selectLod, h1024]
    rfl
  · norm_num [selectLod, h5000]

/-- Claim C3: `selectLod` returns 0 when `screenPxPerUnit ≤ 0` or when
`ratio = screenPxPerUnit / (tileSize / baseWorldSize) ≤ 1`, and otherwise
`min(maxLod, ceil(log2(ratio)))`; with `tileSize = 256`,
`baseWorldSize = 4`, `maxLod = 4` it takes the six stated concrete values. -/
theorem c3_selectLod_spec (screenPxPerUnit tileSize baseWorldSize : ℚ) (maxLod : Nat)
    (htile : 0 < tileSize) (hbase : 0 < baseWorldSize) :
    ((screenPxPerUnit ≤ 0 → selectLod screenPxPerUnit tileSize baseWorldSize maxLod = 0) ∧
     (screenPxPerUnit / (tileSize / baseWorldSize) ≤ 1 →
       selectLod screenPxPerUnit tileSize baseWorldSize maxLod = 0) ∧
     (1 < screenPxPerUnit / (tileSize / baseWorldSize) →
       (selectLod screenPxPerUnit tileSize baseWorldSize maxLod : ℤ)
         = min (maxLod : ℤ)
             ⌈Real.logb 2 ((screenPxPerUnit / (tileSize / baseWorldSize) : ℚ) : ℝ)⌉)) ∧
    (selectLod 64 256 4 4 = 0 ∧ selectLod 65 256 4 4 = 1 ∧ selectLod 128 256 4 4 = 1 ∧
     selectLod 129 256 4 4 = 2 ∧ selectLod 1024 256 4 4 = 4 ∧ selectLod 5000 256 4 4 = 4) :=
  ⟨selectLod_general screenPxPerUnit tileSize baseWorldSize maxLod htile hbase,
   selectLod_concrete⟩

/-- Witness for C3 at `screenPxPerUnit = 5000, tileSize = 256,
baseWorldSize = 4, maxLod = 4`. -/
theorem c3_selectLod_spec_witness :
    (0:ℚ) < 256 ∧ (0:ℚ) < 4 ∧
    ((((5000:ℚ) ≤ 0 → selectLod 5000 256 4 4 = 0) ∧
      ((5000:ℚ) / (256 / 4) ≤ 1 → selectLod 5000 256 4 4 = 0) ∧
      (1 < (5000:ℚ) / (256 / 4) →
        (selectLod 5000 256 4 4 : ℤ)
          = min (((4:Nat)) : ℤ) ⌈Real.logb 2 (((5000:ℚ) / (256 / 4) : ℚ) : ℝ)⌉)) ∧
     (selectLod 64 256 4 4 = 0 ∧ selectLod 65 256 4 4 = 1 ∧ selectLod 128 256 4 4 = 1 ∧
      selectLod 129 256 4 4 = 2 ∧ selectLod 1024 256 4 4 = 4 ∧ selectLod 5000 256 4 4 = 4)) :=
  ⟨by norm_num, by norm_num, c3_selectLod_spec 5000 256 4 4 (by norm_num) (by norm_num)⟩

/-! ## Claim C8 — sharpness of the selected LOD -/

/-- Claim C8: for `0 < zoom ≤ getTilePixelDensity maxLod`, the selected LOD's
tile pixel density is at least `zoom` (the rendering is never pixelated below
the LOD cap). -/
theorem c8_selectLod_sharpness (zoom tileSize baseWorldSize : ℚ) (maxLod : Nat)
    (htile : 0 < tileSize) (hbase : 0 < baseWorldSize) (hz : 0 < zoom)
    (hcap : zoom ≤ getTilePixelDensity maxLod tileSize baseWorldSize) :
    zoom ≤ getTilePixelDensity (selectLod zoom tileSize baseWorldSize maxLod)
        tileSize baseWorldSize := by
  have hbd : 0 < tileSize / baseWorldSize := div_pos htile hbase
  set ratio := zoom / (tileSize / baseWorldSize) with hratio
  have hzle : ¬ zoom ≤ 0 := not_le.mpr hz
  have hz' : zoom = ratio * (tileSize / baseWorldSize) := by
    field_simp [hratio]
  by_cases hr : ratio ≤ 1
  · have hsel : selectLod zoom tileSize baseWorldSize maxLod = 0 := by
      simp [selectLod, hzle, ← hratio, hr]
    have hle : zoom ≤ tileSize / baseWorldSize := by
      rw [hz']
      nlinarith
    rw [hsel]
    calc zoom ≤ tileSize / baseWorldSize := hle
      _ = getTilePixelDensity 0 tileSize baseWorldSize := by
            rw [getTilePixelDensity]; ring
  · push_neg at hr
    have hr0 : 0 < ratio := lt_trans zero_lt_one hr
    have hsel : selectLod zoom tileSize baseWorldSize maxLod
        = min (Int.clog 2 ratio).toNat maxLod := by
      simp [selectLod, hzle, ← hratio, not_le.mpr hr]
    rw [hsel]
    by_cases hm : (Int.clog 2 ratio).toNat ≤ maxLod
    · rw [min_eq_left hm]
      have h1 : ratio ≤ ((2:ℕ):ℚ) ^ Int.clog 2 ratio := Int.self_le_zpow_clog one_lt_two ratio
      have hclog0 : 0 ≤ Int.clog 2 ratio := (clog_pos_of_one_lt _ hr).le
      have h2 : ((2:ℕ):ℚ) ^ Int.clog 2 ratio = (2:ℚ) ^ (Int.clog 2 ratio).toNat := by
        rw [← zpow_natCast ((2:ℚ)) (Int.clog 2 ratio).toNat, Int.toNat_of_nonneg hclog0]
        norm_num
      calc zoom = ratio * (tileSize / baseWorldSize) := hz'
        _ ≤ (2:ℚ) ^ (Int.clog 2 ratio).toNat * (tileSize / baseWorldSize) := by
              apply mul_le_mul_of_nonneg_right _ hbd.le
              rw [← h2]; exact h1
        _ = getTilePixelDensity (Int.clog 2 ratio).toNat tileSize baseWorldSize := by
              rw [getTilePixelDensity]; ring
    · rw [min_eq_right (le_of_not_le hm)]
      exact hcap

/-- Witness for C8 at `zoom = 100, tileSize = 256, baseWorldSize = 4,
maxLod = 4`. -/
theorem c8_selectLod_sharpness_witness :
    (0:ℚ) < 256 ∧ (0:ℚ) < 4 ∧ (0:ℚ) < 100 ∧
    (100:ℚ) ≤ getTilePixelDensity 4 256 4 ∧
    (100:ℚ) ≤ getTilePixelDensity (selectLod 100 256 4 4) 256 4 :=
  ⟨by norm_num, by norm_num, by norm_num, by norm_num [getTilePixelDensity],
   c8_selectLod_sharpness 100 256 4 4 (by norm_num) (by norm_num) (by norm_num)
     (by norm_num [getTilePixelDensity])⟩

/-! ## Claim C7 — `cancelPending` -/

/-- The cancellation loop rejects exactly the matching tasks (with the
`cancelled` error) and keeps the others in order. -/
theorem cancelLoop_eq (imageIndex belowLod : Nat) (q : List PoolTask) :
    cancelLoop imageIndex belowLod q
      = (q.filter (fun t => ¬ (t.imageIndex = imageIndex ∧ t.lodLevel < belowLod)),
         (q.filter (fun t => t.imageIndex = imageIndex ∧ t.lodLevel < belowLod)).map
           (fun t => (t, "cancelled"))) := by
  induction q with
  | nil => simp [cancelLoop]
  | cons t rest ih =>
    simp only [cancelLoop, ih, List.filter_cons]
    by_cases hc : t.imageIndex = imageIndex ∧ t.lodLevel < belowLod
    · obtain ⟨h1, h2⟩ := hc
      simp [h1, h2]
    · rw [Classical.not_and_iff_or_not_not] at hc
      rcases hc with h1 | h2
      · simp [h1]
      · simp [h2, Nat.le_of_not_lt (fun hlt => h2 hlt)]

/-- Claim C7: `cancelPending(image, belowLod)` rejects, with the distinguished
`cancelled` error, exactly the queued tasks with `imageIndex = image` and
`lodLevel < belowLod`; every other queued task is kept in its original
relative order, and the `active` map (tasks already dispatched to a worker)
is untouched. -/
theorem c7_cancelPending_spec (p : TileLoaderPool) (imageIndex belowLod : Nat) :
    ((p.cancelPending imageIndex belowLod).2
        = (p.queue.filter (fun t => t.imageIndex = imageIndex ∧ t.lodLevel < belowLod)).map
            (fun t => (t, "cancelled"))) ∧
    ((p.cancelPending imageIndex belowLod).1.queue
        = p.queue.filter (fun t => ¬ (t.imageIndex = imageIndex ∧ t.lodLevel < belowLod))) ∧
    ((p.cancelPending imageIndex belowLod).1.active = p.active) := by
  simp [TileLoaderPool.cancelPending, cancelLoop_eq]

/-! ## Claim C9 — `updateRotations` and the constructor's bounds -/

/-- Claim C9 (refuted): after `updateRotations`, the plane bounds do NOT
match what the constructor would produce for the same rotations and the
existing scales.  Concretely, for one image with scale 2 and rotation 0
(`imageWorldSize = 4`, `gap = 1/2`), `updateRotations([0])` sets
`boundSize = imageWorldSize * expandFactor = 4`, while the constructor
produces `boundSize = (imageWorldSize * scale) * expandFactor = 8`; this
holds for every trig oracle, i.e. regardless of `Math.cos`/`Math.sin`. -/
theorem c9_updateRotations_stale_bounds (cosFn sinFn : ℚ → ℚ) :
    (vcUpdateRotationsPlane cosFn sinFn 4 (some [0])
        (vcConstructorPlane cosFn sinFn 1 4 (1/2) (some [0]) (some [2]) 0) 0).boundSize = 4 ∧
    (vcConstructorPlane cosFn sinFn 1 4 (1/2) (some [0]) (some [2]) 0).boundSize = 8 ∧
    (vcUpdateRotationsPlane cosFn sinFn 4 (some [0])
        (vcConstructorPlane cosFn sinFn 1 4 (1/2) (some [0]) (some [2]) 0) 0).boundSize ≠
      (vcConstructorPlane cosFn sinFn 1 4 (1/2) (some [0]) (some [2]) 0).boundSize := by
  refine ⟨?_, ?_, ?_⟩
  · simp [vcUpdateRotationsPlane, vcExpandFactor]
  · simp [vcConstructorPlane, vcExpandFactor]
    norm_num
  · simp [vcUpdateRotationsPlane, vcConstructorPlane, vcExpandFactor]

/-! ## Lemmas about the association-list `Map` model -/

theorem mapGet_nil {κ ν : Type} [DecidableEq κ] (k : κ) :
    mapGet ([] : List (κ × ν)) k = none := rfl

theorem mapGet_cons {κ ν : Type} [DecidableEq κ] (e : κ × ν) (m : List (κ × ν)) (k : κ) :
    mapGet (e :: m) k = if e.1 = k then some e.2 else mapGet m k := by
  by_cases h : e.1 = k <;> simp [mapGet, List.find?_cons, h]

theorem mapGet_eq_none_iff {κ ν : Type} [DecidableEq κ] (m : List (κ × ν)) (k : κ) :
    mapGet m k = none ↔ k ∉ m.map Prod.fst := by
  induction m with
  | nil => simp [mapGet]
  | cons e rest ih =>
    rw [mapGet_cons]
    by_cases h : e.1 = k
    · simp [h]
    · rw [if_neg h, ih]
      constructor
      · intro hn
        simp only [List.map_cons, List.mem_cons]
        push_neg
        exact ⟨fun hc => h hc.symm, hn⟩
      · intro hn
        simp only [List.map_cons, List.mem_cons] at hn
        push_neg at hn
        exact hn.2

theorem mem_of_mapGet_eq_some {κ ν : Type} [DecidableEq κ] {m : List (κ × ν)} {k : κ} {v : ν}
    (h : mapGet m k = some v) : (k, v) ∈ m := by
  induction m with
  | nil => simp [mapGet] at h
  | cons e rest ih =>
    rw [mapGet_cons] at h
    by_cases he : e.1 = k
    · rw [if_pos he] at h
      obtain ⟨e1, e2⟩ := e
      simp only at he
      simp only [Option.some_inj] at h
      subst he
      subst h
      exact List.mem_cons_self _ _
    · rw [if_neg he] at h
      exact List.mem_cons_of_mem _ (ih h)

theorem mapGet_eq_some_of_mem {κ ν : Type} [DecidableEq κ] {m : List (κ × ν)} {k : κ} {v : ν}
    (hnd : (m.map Prod.fst).Nodup) (h : (k, v) ∈ m) : mapGet m k = some v := by
  induction m with
  | nil => simp at h
  | cons e rest ih =>
    rw [mapGet_cons]
    rcases List.mem_cons.mp h with h1 | h2
    · rw [← h1]
      simp
    · have hk : k ∈ rest.map Prod.fst := List.mem_map.mpr ⟨(k, v), h2, rfl⟩
      have he : e.1 ≠ k := by
        intro hc
        simp only [List.map_cons, List.nodup_cons] at hnd
        exact hnd.1 (hc ▸ hk)
      rw [if_neg he]
      exact ih (List.nodup_cons.mp (by simpa using hnd)).2 h2

theorem mapSet_of_absent {κ ν : Type} [DecidableEq κ] {m : List (κ × ν)} {k : κ} (v : ν)
    (h : mapGet m k = none) : mapSet m k v = m ++ [(k, v)] := by
  induction m with
  | nil => rfl
  | cons e rest ih =>
    rw [mapGet_cons] at h
    by_cases he : e.1 = k
    · rw [if_pos he] at h
      exact absurd h (by simp)
    · rw [if_neg he] at h
      simp [mapSet, he, ih h]

theorem mapDelete_of_absent {κ ν : Type} [DecidableEq κ] {m : List (κ × ν)} {k : κ}
    (h : mapGet m k = none) : mapDelete m k = m := by
  rw [mapGet_eq_none_iff] at h
  apply List.filter_eq_self.mpr
  intro e he
  have hne : e.1 ≠ k := fun hc => h (List.mem_map.mpr ⟨e, he, hc⟩)
  simpa using hne

theorem mapGet_mapDelete_self {κ ν : Type} [DecidableEq κ] (m : List (κ × ν)) (k : κ) :
    mapGet (mapDelete m k) k = none := by
  rw [mapGet_eq_none_iff]
  intro hc
  obtain ⟨e, he, hk⟩ := List.mem_map.mp hc
  have hmem := List.of_mem_filter he
  simp [hk] at hmem

theorem mapGet_mapDelete_ne {κ ν : Type} [DecidableEq κ] (m : List (κ × ν)) {k k' : κ}
    (h : k' ≠ k) : mapGet (mapDelete m k) k' = mapGet m k' := by
  induction m with
  | nil => rfl
  | cons e rest ih =>
    by_cases he : e.1 = k
    · have hne : e.1 ≠ k' := fun hc => h (by rw [← hc, he])
      have hstep : mapDelete (e :: rest) k = mapDelete rest k := by
        simp [mapDelete, List.filter_cons, he]
      rw [hstep, ih, mapGet_cons, if_neg hne]
    · have hstep : mapDelete (e :: rest) k = e :: mapDelete rest k := by
        simp [mapDelete, List.filter_cons, he]
      rw [hstep, mapGet_cons, mapGet_cons, ih]

theorem mapDelete_sublist {κ ν : Type} [DecidableEq κ] (m : List (κ × ν)) (k : κ) :
    (mapDelete m k).Sublist m :=
  List.filter_sublist m

theorem mapDelete_length {κ ν : Type} [DecidableEq κ] {m : List (κ × ν)} {k : κ} {v : ν}
    (hnd : (m.map Prod.fst).Nodup) (h : mapGet m k = some v) :
    (mapDelete m k).length + 1 = m.length := by
  induction m with
  | nil => simp [mapGet] at h
  | cons e rest ih =>
    rw [mapGet_cons] at h
    simp only [List.map_cons, List.nodup_cons] at hnd
    by_cases he : e.1 = k
    · have hnone : mapGet rest k = none := by
        rw [mapGet_eq_none_iff]
        exact fun hc => hnd.1 (he ▸ hc)
      have hstep : mapDelete (e :: rest) k = mapDelete rest k := by
        simp [mapDelete, List.filter_cons, he]
      rw [hstep, mapDelete_of_absent hnone]
      simp
    · rw [if_neg he] at h
      have hstep : mapDelete (e :: rest) k = e :: mapDelete rest k := by
        simp [mapDelete, List.filter_cons, he]
      rw [hstep]
      simp only [List.length_cons]
      rw [← ih hnd.2 h]
/-! ## Lemmas about searches over `List.range` -/

theorem range_find?_eq_some {n a : Nat} {p : Nat → Bool}
    (h : (List.range n).find? p = some a) : a < n ∧ p a ∧ ∀ i < a, ¬ p i := by
  induction n with
  | zero => simp [List.range_zero] at h
  | succ m ih =>
    rw [List.range_succ, List.find?_append] at h
    cases hm : (List.range m).find? p with
    | some b =>
      rw [hm, Option.or_some] at h
      obtain ⟨hlt, hp, hmin⟩ := ih (hm.trans h)
      exact ⟨Nat.lt_succ_of_lt hlt, hp, hmin⟩
    | none =>
      rw [hm] at h
      have hnone := List.find?_eq_none.mp hm
      simp only [Option.none_or] at h
      have hpa := List.find?_some h
      have hmem := List.mem_of_find?_eq_some h
      simp only [List.mem_singleton] at hmem
      subst hmem
      exact ⟨Nat.lt_succ_self _, hpa, fun i hi => hnone i (List.mem_range.mpr hi)⟩

theorem range_find?_eq_none {n : Nat} {p : Nat → Bool}
    (h : (List.range n).find? p = none) : ∀ i < n, ¬ p i :=
  fun i hi => List.find?_eq_none.mp h i (List.mem_range.mpr hi)

theorem range_findSome?_eq_some {β : Type} {n : Nat} {f : Nat → Option β} {v : β}
    (h : (List.range n).findSome? f = some v) :
    ∃ l, l < n ∧ f l = some v ∧ ∀ j < l, f j = none := by
  induction n with
  | zero => simp [List.range_zero] at h
  | succ m ih =>
    rw [List.range_succ, List.findSome?_append] at h
    cases hm : (List.range m).findSome? f with
    | some b =>
      rw [hm, Option.or_some] at h
      obtain ⟨l, hl, hf, hnone⟩ := ih (hm.trans h)
      exact ⟨l, Nat.lt_succ_of_lt hl, hf, hnone⟩
    | none =>
      rw [hm] at h
      simp only [Option.none_or] at h
      have hnone : ∀ x ∈ List.range m, f x = none := List.findSome?_eq_none_iff.mp hm
      refine ⟨m, Nat.lt_succ_self m, ?_, fun j hj => hnone j (List.mem_range.mpr hj)⟩
      cases hf : f m with
      | some b =>
        simp [List.findSome?, hf] at h
        simp [h]
      | none => simp [List.findSome?, hf] at h

theorem range_findSome?_eq_none {β : Type} {n : Nat} {f : Nat → Option β}
    (h : (List.range n).findSome? f = none) : ∀ i < n, f i = none :=
  fun i hi => List.findSome?_eq_none_iff.mp h i (List.mem_range.mpr hi)
/-! ## Slot allocator: well-formedness invariant -/

namespace SlotAllocator

variable {κ : Type} [DecidableEq κ]

/-- The slot index a `Slot` denotes inside its layer (as recomputed by `free`). -/
def slotIndex (a : SlotAllocator κ) (s : Slot) : Nat :=
  s.slotY * a.tilesPerRow + s.slotX

/-- Well-formedness of allocator state: the layer list has the constructed
length, used sets stay inside the layer capacity, tile keys are unique, slots
are in range and pairwise distinct, the used sets record exactly the mapped
slots, and the used count agrees with the number of mappings. -/
def WF (a : SlotAllocator κ) : Prop :=
  a.layerSlots.length = a.maxLayers ∧
  (∀ s ∈ a.layerSlots, s ⊆ Finset.range a.tilesPerLayer) ∧
  (a.usedSlots.map Prod.fst).Nodup ∧
  (∀ e ∈ a.usedSlots,
    e.2.layer < a.maxLayers ∧ e.2.slotX < a.tilesPerRow ∧ e.2.slotY < a.tilesPerRow) ∧
  a.usedSlots.Pairwise (fun e₁ e₂ => e₁.2 ≠ e₂.2) ∧
  (∀ layer < a.maxLayers, ∀ i < a.tilesPerLayer,
    (i ∈ a.layerSlots.getD layer ∅ ↔
      ∃ e ∈ a.usedSlots, e.2.layer = layer ∧ a.slotIndex e.2 = i)) ∧
  a.getUsedCount = a.usedSlots.length

theorem init_WF (maxLayers tilesPerRow : Nat) :
    WF (init maxLayers tilesPerRow : SlotAllocator κ) := by
  refine ⟨by simp [init], ?_, by simp [init], by simp [init], by simp [init], ?_, ?_⟩
  · intro s hs
    simp only [init, List.mem_replicate] at hs
    simp [hs.2]
  · intro layer hlayer i hi
    constructor
    · intro hmem
      have : (List.replicate maxLayers (∅ : Finset Nat)).getD layer ∅ = ∅ := by
        rcases Nat.lt_or_ge layer maxLayers with h | h
        · rw [List.getD_eq_getElem _ _ (by simpa using h)]
          simp
        · rw [List.getD_eq_default _ _ (by simpa using h)]
      rw [show (init maxLayers tilesPerRow : SlotAllocator κ).layerSlots
            = List.replicate maxLayers ∅ from rfl, this] at hmem
      simp at hmem
    · rintro ⟨e, he, -⟩
      simp [init] at he
  · simp only [init, getUsedCount, List.map_replicate]
    simp

/-- The slot index bound: a slot with in-range coordinates has in-range index. -/
theorem slotIndex_lt (a : SlotAllocator κ) (s : Slot)
    (hx : s.slotX < a.tilesPerRow) (hy : s.slotY < a.tilesPerRow) :
    a.slotIndex s < a.tilesPerLayer := by
  have h1 : s.slotY * a.tilesPerRow + s.slotX < s.slotY * a.tilesPerRow + a.tilesPerRow :=
    Nat.add_lt_add_left hx _
  have h2 : s.slotY * a.tilesPerRow + a.tilesPerRow = (s.slotY + 1) * a.tilesPerRow := by ring
  have h3 : (s.slotY + 1) * a.tilesPerRow ≤ a.tilesPerRow * a.tilesPerRow :=
    Nat.mul_le_mul_right _ hy
  calc a.slotIndex s < (s.slotY + 1) * a.tilesPerRow := h2 ▸ h1
    _ ≤ a.tilesPerLayer := h3

/-- Sum-of-cards accounting for a single-position list update. -/
theorem sum_card_set (l : List (Finset Nat)) (j : Nat) (S : Finset Nat) (hj : j < l.length) :
    ((l.set j S).map Finset.card).sum + (l.getD j ∅).card
      = (l.map Finset.card).sum + S.card := by
  induction l generalizing j with
  | nil => simp at hj
  | cons x xs ih =>
    cases j with
    | zero => simp [List.set_cons_zero, List.getD_cons_zero]; ring
    | succ n =>
      simp only [List.set_cons_succ, List.getD_cons_succ, List.map_cons, List.sum_cons]
      have hn : n < xs.length := by simpa using hj
      have := ih n hn
      omega

/-- A list of sets, each of size `c`, sums to `length * c`. -/
theorem sum_card_const (l : List (Finset Nat)) (c : Nat) (h : ∀ x ∈ l, x.card = c) :
    (l.map Finset.card).sum = l.length * c := by
  induction l with
  | nil => simp
  | cons x xs ih =>
    simp only [List.map_cons, List.sum_cons, List.length_cons]
    rw [h x (List.mem_cons_self _ _), ih (fun y hy => h y (List.mem_cons_of_mem _ hy))]
    ring

/-- Upper bound on the sum of cards. -/
theorem sum_card_le (l : List (Finset Nat)) (c : Nat) (h : ∀ x ∈ l, x.card ≤ c) :
    (l.map Finset.card).sum ≤ l.length * c := by
  induction l with
  | nil => simp
  | cons x xs ih =>
    simp only [List.map_cons, List.sum_cons, List.length_cons]
    have h1 := h x (List.mem_cons_self _ _)
    have h2 := ih (fun y hy => h y (List.mem_cons_of_mem _ hy))
    calc x.card + (xs.map Finset.card).sum ≤ c + xs.length * c := Nat.add_le_add h1 h2
      _ = (xs.length + 1) * c := by ring

/-- Strict upper bound on the sum of cards when one set is not full. -/
theorem sum_card_lt (l : List (Finset Nat)) (c j : Nat) (hj : j < l.length)
    (hall : ∀ x ∈ l, x.card ≤ c) (hlt : (l.getD j ∅).card < c) :
    (l.map Finset.card).sum < l.length * c := by
  induction l generalizing j with
  | nil => simp at hj
  | cons x xs ih =>
    simp only [List.map_cons, List.sum_cons, List.length_cons]
    have hxs : ∀ y ∈ xs, y.card ≤ c := fun y hy => hall y (List.mem_cons_of_mem _ hy)
    cases j with
    | zero =>
      simp only [List.getD_cons_zero] at hlt
      calc x.card + (xs.map Finset.card).sum < c + xs.length * c :=
            Nat.add_lt_add_of_lt_of_le hlt (sum_card_le xs c hxs)
        _ = (xs.length + 1) * c := by ring
    | succ n =>
      simp only [List.getD_cons_succ] at hlt
      have hn : n < xs.length := by simpa using hj
      have hx := hall x (List.mem_cons_self _ _)
      calc x.card + (xs.map Finset.card).sum < c + xs.length * c :=
            Nat.add_lt_add_of_le_of_lt hx (ih n hn hxs hlt)
        _ = (xs.length + 1) * c := by ring

end SlotAllocator
/-! ## Slot allocator: append-map lemmas and slot decomposition -/

theorem mapGet_append_of_absent {κ ν : Type} [DecidableEq κ] {m : List (κ × ν)} {k : κ}
    (m₂ : List (κ × ν)) (h : mapGet m k = none) : mapGet (m ++ m₂) k = mapGet m₂ k := by
  simp only [mapGet] at h ⊢
  rw [Option.map_eq_none'] at h
  rw [List.find?_append, h, Option.none_or]

theorem mapGet_append_left {κ ν : Type} [DecidableEq κ] {m : List (κ × ν)} {k : κ} {v : ν}
    (m₂ : List (κ × ν)) (h : mapGet m k = some v) : mapGet (m ++ m₂) k = some v := by
  simp only [mapGet] at h ⊢
  rcases hf : m.find? (fun e => decide (e.1 = k)) with - | e
  · rw [hf] at h
    simp at h
  · rw [hf] at h
    rw [List.find?_append, hf, Option.or_some]
    exact h

/-- In a `Pairwise`-distinct-slot list, two entries with the same slot are the
same entry. -/
theorem pairwise_snd_inj {α β : Type} {l : List (α × β)}
    (hp : l.Pairwise (fun e₁ e₂ => e₁.2 ≠ e₂.2)) {e₁ e₂ : α × β}
    (h₁ : e₁ ∈ l) (h₂ : e₂ ∈ l) (h : e₁.2 = e₂.2) : e₁ = e₂ := by
  induction l with
  | nil => simp at h₁
  | cons x xs ih =>
    rcases List.pairwise_cons.mp hp with ⟨hx, hxs⟩
    rcases List.mem_cons.mp h₁ with rfl | h₁m
    · rcases List.mem_cons.mp h₂ with rfl | h₂m
      · rfl
      · exact absurd h (hx e₂ h₂m)
    · rcases List.mem_cons.mp h₂ with rfl | h₂m
      · exact absurd h.symm (hx e₁ h₁m)
      · exact ih hxs h₁m h₂m

namespace SlotAllocator

variable {κ : Type} [DecidableEq κ]

/-- Unique decomposition of a slot index into in-range coordinates. -/
theorem slot_eq_of_slotIndex_eq (a : SlotAllocator κ) {s₁ s₂ : Slot}
    (h1x : s₁.slotX < a.tilesPerRow) (h2x : s₂.slotX < a.tilesPerRow)
    (hlayer : s₁.layer = s₂.layer) (hidx : a.slotIndex s₁ = a.slotIndex s₂) : s₁ = s₂ := by
  obtain ⟨l₁, x₁, y₁⟩ := s₁
  obtain ⟨l₂, x₂, y₂⟩ := s₂
  simp only [slotIndex] at hidx
  simp only at hlayer h1x h2x
  have hx : x₁ = x₂ := by
    have e₁ : (y₁ * a.tilesPerRow + x₁) % a.tilesPerRow = x₁ := by
      rw [Nat.add_comm, Nat.mul_comm, Nat.add_mul_mod_self_left, Nat.mod_eq_of_lt h1x]
    have e₂ : (y₂ * a.tilesPerRow + x₂) % a.tilesPerRow = x₂ := by
      rw [Nat.add_comm, Nat.mul_comm, Nat.add_mul_mod_self_left, Nat.mod_eq_of_lt h2x]
    rw [← e₁, ← e₂, hidx]
  have hrow : 0 < a.tilesPerRow := Nat.lt_of_le_of_lt (Nat.zero_le _) h1x
  have hy : y₁ = y₂ := by
    have := hidx
    rw [hx] at this
    have := Nat.add_right_cancel this
    exact Nat.eq_of_mul_eq_mul_right hrow this
  simp [hlayer, hx, hy]

/-! ### `findFreeSlot` characterisation -/

theorem findFreeSlot_some_spec (a : SlotAllocator κ) {s : Slot} {i : Nat} (hWF : WF a)
    (h : a.findFreeSlot = some (s, i)) :
    s.layer < a.maxLayers ∧ i < a.tilesPerLayer ∧ s = a.slotOfIndex s.layer i ∧
    i ∉ a.layerSlots.getD s.layer ∅ ∧
    (∀ i' < i, i' ∈ a.layerSlots.getD s.layer ∅) ∧
    (∀ j < s.layer, ∀ i' < a.tilesPerLayer, i' ∈ a.layerSlots.getD j ∅) ∧
    (a.layerSlots.getD s.layer ∅).card < a.tilesPerLayer := by
  obtain ⟨-, hsub, -⟩ := hWF
  obtain ⟨l, hl, hf, hnone⟩ := range_findSome?_eq_some h
  simp only [findFreeSlot] at hf
  by_cases hcard : (a.layerSlots.getD l ∅).card < a.tilesPerLayer
  · rw [if_pos hcard, Option.map_eq_some'] at hf
    obtain ⟨i', hfind, heq⟩ := hf
    have hpair : s = a.slotOfIndex l i' ∧ i = i' := by
      have h1 := congrArg Prod.fst heq
      have h2 := congrArg Prod.snd heq
      simp at h1 h2
      exact ⟨h1.symm, h2.symm⟩
    obtain ⟨hs, rfl⟩ := hpair
    have hlayer : s.layer = l := by rw [hs]; rfl
    obtain ⟨hilt, hpi, hmin⟩ := range_find?_eq_some hfind
    simp only [decide_not, Bool.not_eq_true', decide_eq_false_iff_not, Decidable.not_not] at hpi
    refine ⟨hlayer ▸ hl, hilt, hlayer ▸ hs, hlayer ▸ hpi, ?_, ?_, hlayer ▸ hcard⟩
    · intro i' hi'
      have := hmin i' hi'
      simp only [decide_not, Bool.not_not] at this
      rw [hlayer]
      by_contra hc
      exact this (by simpa using hc)
    · intro j hj i' hi'
      have hfj := hnone j (hlayer ▸ hj)
      simp only [findFreeSlot] at hfj
      by_cases hcj : (a.layerSlots.getD j ∅).card < a.tilesPerLayer
      · rw [if_pos hcj, Option.map_eq_none'] at hfj
        have := range_find?_eq_none hfj i' hi'
        simpa using this
      · push_neg at hcj
        have hjlt : j < a.maxLayers := lt_trans hj (hlayer ▸ hl)
        have hsubj : a.layerSlots.getD j ∅ ⊆ Finset.range a.tilesPerLayer := by
          rcases Nat.lt_or_ge j a.layerSlots.length with hlen | hlen
          · exact hsub _ (by rw [List.getD_eq_getElem _ _ hlen]; exact List.getElem_mem _)
          · rw [List.getD_eq_default _ _ hlen]
            intro x hx
            simp at hx
        have heq2 : a.layerSlots.getD j ∅ = Finset.range a.tilesPerLayer :=
          Finset.eq_of_subset_of_card_le hsubj (by simpa using hcj)
        rw [heq2]
        exact Finset.mem_range.mpr hi'
  · rw [if_neg hcard] at hf
    exact absurd hf (by simp)

theorem findFreeSlot_none_spec (a : SlotAllocator κ) (hWF : WF a)
    (h : a.findFreeSlot = none) : a.getUsedCount = a.getTotalSlots := by
  obtain ⟨hlen, hsub, -, -, -, -, -⟩ := hWF
  have hall : ∀ layer < a.maxLayers, (a.layerSlots.getD layer ∅).card = a.tilesPerLayer := by
    intro layer hl
    have hfl := range_findSome?_eq_none h layer hl
    simp only [findFreeSlot] at hfl
    by_cases hcard : (a.layerSlots.getD layer ∅).card < a.tilesPerLayer
    · rw [if_pos hcard, Option.map_eq_none'] at hfl
      have hmem := range_find?_eq_none hfl
      have : Finset.range a.tilesPerLayer ⊆ a.layerSlots.getD layer ∅ := by
        intro x hx
        have := hmem x (Finset.mem_range.mp hx)
        simpa using this
      have := Finset.card_le_card this
      simp only [Finset.card_range] at this
      omega
    · push_neg at hcard
      have hsubl : a.layerSlots.getD layer ∅ ⊆ Finset.range a.tilesPerLayer := by
        rw [List.getD_eq_getElem _ _ (hlen ▸ hl)]
        exact hsub _ (List.getElem_mem _)
      have := Finset.card_le_card hsubl
      simp only [Finset.card_range] at this
      omega
  have hcards : ∀ x ∈ a.layerSlots, x.card = a.tilesPerLayer := by
    intro x hx
    obtain ⟨j, hj, rfl⟩ := List.getElem_of_mem hx
    have hjm : j < a.maxLayers := hlen ▸ hj
    have := hall j hjm
    rwa [List.getD_eq_getElem _ _ hj] at this
  rw [getUsedCount, sum_card_const _ _ hcards, hlen]
  rfl

theorem findFreeSlot_some_not_full (a : SlotAllocator κ) {s : Slot} {i : Nat} (hWF : WF a)
    (h : a.findFreeSlot = some (s, i)) : a.getUsedCount < a.getTotalSlots := by
  obtain ⟨hl, _, _, _, _, hfull, hcard⟩ := findFreeSlot_some_spec a hWF h
  obtain ⟨hlen, hsub, -, -, -, -, -⟩ := hWF
  have hall : ∀ x ∈ a.layerSlots, x.card ≤ a.tilesPerLayer := by
    intro x hx
    have := Finset.card_le_card (hsub x hx)
    simpa using this
  have := sum_card_lt a.layerSlots a.tilesPerLayer s.layer (hlen ▸ hl) hall hcard
  rw [getUsedCount, getTotalSlots, ← hlen]
  exact this

end SlotAllocator
/-! ## Slot allocator: `allocate` and `free` specifications -/

namespace SlotAllocator

variable {κ : Type} [DecidableEq κ]

theorem allocate_mem_eq (a : SlotAllocator κ) {k : κ} {s : Slot}
    (h : mapGet a.usedSlots k = some s) : a.allocate k = (some s, a) := by
  simp [allocate, h]

theorem allocate_absent_none_eq (a : SlotAllocator κ) {k : κ}
    (hfresh : mapGet a.usedSlots k = none) (hfind : a.findFreeSlot = none) :
    a.allocate k = (none, a) := by
  simp [allocate, hfresh, hfind]

theorem allocate_absent_some_eq (a : SlotAllocator κ) {k : κ} {s : Slot} {i : Nat}
    (hfresh : mapGet a.usedSlots k = none) (hfind : a.findFreeSlot = some (s, i)) :
    a.allocate k = (some s,
      { a with
        layerSlots := a.layerSlots.set s.layer (insert i (a.layerSlots.getD s.layer ∅))
        usedSlots := a.usedSlots ++ [(k, s)] }) := by
  simp [allocate, hfresh, hfind, mapSet_of_absent _ hfresh]

/-- The slot found by `findFreeSlot` decomposes `i` as its slot index. -/
theorem findFreeSlot_coords (a : SlotAllocator κ) {s : Slot} {i : Nat} (hWF : WF a)
    (hfind : a.findFreeSlot = some (s, i)) :
    0 < a.tilesPerRow ∧ s.slotX < a.tilesPerRow ∧ s.slotY < a.tilesPerRow ∧
    a.slotIndex s = i := by
  obtain ⟨hl, hi, hs, -, -, -, -⟩ := findFreeSlot_some_spec a hWF hfind
  have hrow : 0 < a.tilesPerRow := by
    rcases Nat.eq_zero_or_pos a.tilesPerRow with h0 | h
    · exfalso
      have : a.tilesPerLayer = 0 := by simp [tilesPerLayer, h0]
      omega
    · exact h
  have hx : s.slotX = i % a.tilesPerRow := by rw [hs]; rfl
  have hy : s.slotY = i / a.tilesPerRow := by rw [hs]; rfl
  refine ⟨hrow, ?_, ?_, ?_⟩
  · rw [hx]; exact Nat.mod_lt _ hrow
  · rw [hy]
    rw [Nat.div_lt_iff_lt_mul hrow]
    exact hi
  · rw [slotIndex, hx, hy, Nat.mul_comm, Nat.div_add_mod]

/-- `allocate` on a fresh key with a free slot: well-formedness is preserved,
the mapping is appended and the used count grows by exactly one. -/
theorem allocate_fresh_spec (a : SlotAllocator κ) (k : κ) (hWF : WF a)
    (hfresh : mapGet a.usedSlots k = none) {s : Slot} {i : Nat}
    (hfind : a.findFreeSlot = some (s, i)) :
    WF (a.allocate k).2 ∧
    (a.allocate k).2.usedSlots = a.usedSlots ++ [(k, s)] ∧
    (a.allocate k).2.getUsedCount = a.getUsedCount + 1 ∧
    (a.allocate k).2.maxLayers = a.maxLayers ∧
    (a.allocate k).2.tilesPerRow = a.tilesPerRow ∧
    (a.allocate k).2.layerSlots.length = a.layerSlots.length := by
  obtain ⟨hlen, hsub, hnd, hbound, hpair, hcorr, hcount⟩ := hWF
  have hWF' : WF a := ⟨hlen, hsub, hnd, hbound, hpair, hcorr, hcount⟩
  obtain ⟨hl, hi, hs, hnot, hminI, hfull, hcard⟩ := findFreeSlot_some_spec a hWF' hfind
  obtain ⟨hrow, hsx, hsy, hidx⟩ := findFreeSlot_coords a hWF' hfind
  rw [allocate_absent_some_eq a hfresh hfind]
  set used := a.layerSlots.getD s.layer ∅ with hused
  have hlayerlen : s.layer < a.layerSlots.length := hlen ▸ hl
  have husedsub : used ⊆ Finset.range a.tilesPerLayer := by
    rw [hused, List.getD_eq_getElem _ _ hlayerlen]
    exact hsub _ (List.getElem_mem _)
  have hknot : k ∉ a.usedSlots.map Prod.fst := (mapGet_eq_none_iff _ _).mp hfresh
  refine ⟨⟨?_, ?_, ?_, ?_, ?_, ?_, ?_⟩, rfl, ?_, rfl, rfl, by simp⟩
  · simpa using hlen
  · intro S hS
    rcases List.mem_or_eq_of_mem_set hS with hmem | rfl
    · exact hsub _ hmem
    · exact Finset.insert_subset (Finset.mem_range.mpr hi) husedsub
  · rw [List.map_append]
    simp only [List.map_cons, List.map_nil]
    rw [List.nodup_append]
    refine ⟨hnd, List.nodup_singleton _, ?_⟩
    intro x hx hmem
    simp only [List.mem_singleton] at hmem
    exact hknot (hmem ▸ hx)
  · intro e he
    rcases List.mem_append.mp he with hmem | hnew
    · exact hbound e hmem
    · simp only [List.mem_singleton] at hnew
      subst hnew
      exact ⟨hl, hsx, hsy⟩
  · rw [List.pairwise_append]
    refine ⟨hpair, List.pairwise_singleton _ _, ?_⟩
    intro e₁ h₁ e₂ h₂
    simp only [List.mem_singleton] at h₂
    subst h₂
    intro hc
    simp only at hc
    have hmem : i ∈ used := by
      rw [hused]
      exact (hcorr s.layer hl i hi).mpr ⟨e₁, h₁, by rw [hc], by rw [hc]; exact hidx⟩
    exact hnot hmem
  · show ∀ layer < a.maxLayers, ∀ i' < a.tilesPerLayer,
        (i' ∈ (a.layerSlots.set s.layer (insert i used)).getD layer ∅ ↔
          ∃ e ∈ a.usedSlots ++ [(k, s)], e.2.layer = layer ∧ a.slotIndex e.2 = i')
    intro layer hlayer i' hi'
    by_cases hsame : layer = s.layer
    · subst hsame
      have hgd : (a.layerSlots.set s.layer (insert i used)).getD s.layer ∅ = insert i used := by
        rw [List.getD_eq_getElem _ _ (by simpa using hlayerlen)]
        exact List.getElem_set_self _
      rw [hgd]
      constructor
      · intro hmem
        rcases Finset.mem_insert.mp hmem with rfl | hold
        · exact ⟨(k, s), by simp, rfl, hidx⟩
        · obtain ⟨e, he, helayer, heidx⟩ := (hcorr s.layer hlayer i' hi').mp (hused ▸ hold)
          exact ⟨e, List.mem_append_left _ he, helayer, heidx⟩
      · rintro ⟨e, he, helayer, heidx⟩
        rcases List.mem_append.mp he with hmem | hnew
        · exact Finset.mem_insert_of_mem
            (hused ▸ (hcorr s.layer hlayer i' hi').mpr ⟨e, hmem, helayer, heidx⟩)
        · simp only [List.mem_singleton] at hnew
          subst hnew
          simp only at helayer heidx
          rw [← heidx, hidx]
          exact Finset.mem_insert_self _ _
    · have hgd : (a.layerSlots.set s.layer (insert i used)).getD layer ∅
          = a.layerSlots.getD layer ∅ := by
        rcases Nat.lt_or_ge layer a.layerSlots.length with hll | hll
        · rw [List.getD_eq_getElem _ _ (by simpa using hll),
            List.getElem_set_ne (fun hc => hsame hc.symm), List.getD_eq_getElem _ _ hll]
        · rw [List.getD_eq_default _ _ (by simpa using hll), List.getD_eq_default _ _ hll]
      rw [hgd]
      constructor
      · intro hmem
        obtain ⟨e, he, helayer, heidx⟩ := (hcorr layer hlayer i' hi').mp hmem
        exact ⟨e, List.mem_append_left _ he, helayer, heidx⟩
      · rintro ⟨e, he, helayer, heidx⟩
        rcases List.mem_append.mp he with hmem | hnew
        · exact (hcorr layer hlayer i' hi').mpr ⟨e, hmem, helayer, heidx⟩
        · simp only [List.mem_singleton] at hnew
          subst hnew
          simp only at helayer
          exact absurd helayer.symm hsame
  · show ((a.layerSlots.set s.layer (insert i used)).map Finset.card).sum
        = (a.usedSlots ++ [(k, s)]).length
    have hacc := sum_card_set a.layerSlots s.layer (insert i used) hlayerlen
    rw [Finset.card_insert_of_not_mem hnot, ← hused] at hacc
    simp only [getUsedCount] at hcount
    simp only [List.length_append, List.length_cons, List.length_nil]
    omega
  · show ((a.layerSlots.set s.layer (insert i used)).map Finset.card).sum
        = a.getUsedCount + 1
    have hacc := sum_card_set a.layerSlots s.layer (insert i used) hlayerlen
    rw [Finset.card_insert_of_not_mem hnot, ← hused] at hacc
    simp only [getUsedCount]
    omega

end SlotAllocator
/-! ## Slot allocator: `free` specification -/

namespace SlotAllocator

variable {κ : Type} [DecidableEq κ]

theorem free_absent_eq (a : SlotAllocator κ) {k : κ}
    (h : mapGet a.usedSlots k = none) : a.free k = a := by
  simp [free, h]

theorem free_present_eq (a : SlotAllocator κ) {k : κ} {s : Slot}
    (h : mapGet a.usedSlots k = some s) :
    a.free k =
      { a with
        layerSlots := a.layerSlots.set s.layer
          ((a.layerSlots.getD s.layer ∅).erase (a.slotIndex s))
        usedSlots := mapDelete a.usedSlots k } := by
  simp [free, h, slotIndex]

theorem free_fields (a : SlotAllocator κ) (k : κ) :
    (a.free k).maxLayers = a.maxLayers ∧ (a.free k).tilesPerRow = a.tilesPerRow ∧
    (a.free k).layerSlots.length = a.layerSlots.length := by
  rcases h : mapGet a.usedSlots k with - | s
  · rw [free_absent_eq a h]
    exact ⟨rfl, rfl, rfl⟩
  · rw [free_present_eq a h]
    refine ⟨rfl, rfl, by simp⟩

theorem free_usedCount_le (a : SlotAllocator κ) (k : κ) :
    (a.free k).getUsedCount ≤ a.getUsedCount := by
  rcases h : mapGet a.usedSlots k with - | s
  · rw [free_absent_eq a h]
  · rw [free_present_eq a h]
    rcases Nat.lt_or_ge s.layer a.layerSlots.length with hlt | hge
    · show ((a.layerSlots.set s.layer
          ((a.layerSlots.getD s.layer ∅).erase (a.slotIndex s))).map Finset.card).sum
        ≤ a.getUsedCount
      have hacc := sum_card_set a.layerSlots s.layer
        ((a.layerSlots.getD s.layer ∅).erase (a.slotIndex s)) hlt
      have hle : ((a.layerSlots.getD s.layer ∅).erase (a.slotIndex s)).card
          ≤ (a.layerSlots.getD s.layer ∅).card := Finset.card_erase_le
      simp only [getUsedCount]
      omega
    · show ((a.layerSlots.set s.layer
          ((a.layerSlots.getD s.layer ∅).erase (a.slotIndex s))).map Finset.card).sum
        ≤ a.getUsedCount
      rw [List.set_eq_of_length_le hge]
      exact le_refl _

/-- `free` on a mapped key: well-formedness is preserved, the mapping is
deleted and the used count drops by exactly one. -/
theorem free_present_spec (a : SlotAllocator κ) (k : κ) (hWF : WF a) {s : Slot}
    (hget : mapGet a.usedSlots k = some s) :
    WF (a.free k) ∧ (a.free k).usedSlots = mapDelete a.usedSlots k ∧
    (a.free k).getUsedCount + 1 = a.getUsedCount := by
  obtain ⟨hlen, hsub, hnd, hbound, hpair, hcorr, hcount⟩ := hWF
  have hmem : (k, s) ∈ a.usedSlots := mem_of_mapGet_eq_some hget
  obtain ⟨hslayer, hsx, hsy⟩ := hbound (k, s) hmem
  have hidxlt : a.slotIndex s < a.tilesPerLayer := slotIndex_lt a s hsx hsy
  have hlayerlen : s.layer < a.layerSlots.length := hlen ▸ hslayer
  have hidxmem : a.slotIndex s ∈ a.layerSlots.getD s.layer ∅ :=
    (hcorr s.layer hslayer _ hidxlt).mpr ⟨(k, s), hmem, rfl, rfl⟩
  have hkey_unique : ∀ e ∈ a.usedSlots, e.1 = k → e = (k, s) := by
    intro e he hek
    have : mapGet a.usedSlots e.1 = some e.2 := mapGet_eq_some_of_mem hnd (by
      obtain ⟨e1, e2⟩ := e
      exact he)
    rw [hek, hget] at this
    obtain ⟨e1, e2⟩ := e
    simp only at hek
    simp only [Option.some_inj] at this
    simp [hek, this]
  rw [free_present_eq a hget]
  set used := a.layerSlots.getD s.layer ∅ with hused
  set idx := a.slotIndex s with hidxdef
  have hdelmem : ∀ e, e ∈ mapDelete a.usedSlots k → e ∈ a.usedSlots ∧ e.1 ≠ k := by
    intro e he
    have h1 := List.mem_of_mem_filter he
    have h2 := List.of_mem_filter he
    simp only [ne_eq, decide_not, Bool.not_eq_true', decide_eq_false_iff_not] at h2
    exact ⟨h1, h2⟩
  have hdelmem' : ∀ e, e ∈ a.usedSlots → e.1 ≠ k → e ∈ mapDelete a.usedSlots k := by
    intro e he hne
    apply List.mem_filter.mpr
    refine ⟨he, by simpa using hne⟩
  refine ⟨⟨by simpa using hlen, ?_, ?_, ?_, ?_, ?_, ?_⟩, rfl, ?_⟩
  · intro S hS
    rcases List.mem_or_eq_of_mem_set hS with hmemS | rfl
    · exact hsub _ hmemS
    · intro x hx
      have : x ∈ used := Finset.mem_of_mem_erase hx
      rw [hused, List.getD_eq_getElem _ _ hlayerlen] at this
      exact hsub _ (List.getElem_mem _) this
  · exact ((mapDelete_sublist a.usedSlots k).map Prod.fst).nodup hnd
  · intro e he
    exact hbound e (hdelmem e he).1
  · exact hpair.sublist (mapDelete_sublist a.usedSlots k)
  · show ∀ layer < a.maxLayers, ∀ i' < a.tilesPerLayer,
        (i' ∈ (a.layerSlots.set s.layer (used.erase idx)).getD layer ∅ ↔
          ∃ e ∈ mapDelete a.usedSlots k, e.2.layer = layer ∧ a.slotIndex e.2 = i')
    intro layer hlayer i' hi'
    by_cases hsame : layer = s.layer
    · subst hsame
      have hgd : (a.layerSlots.set s.layer (used.erase idx)).getD s.layer ∅
          = used.erase idx := by
        rw [List.getD_eq_getElem _ _ (by simpa using hlayerlen)]
        exact List.getElem_set_self _
      rw [hgd]
      constructor
      · intro hmem'
        have hne := Finset.ne_of_mem_erase hmem'
        have hin := Finset.mem_of_mem_erase hmem'
        obtain ⟨e, he, helayer, heidx⟩ := (hcorr s.layer hlayer i' hi').mp (hused ▸ hin)
        refine ⟨e, hdelmem' e he ?_, helayer, heidx⟩
        intro hek
        have heq := hkey_unique e he hek
        rw [heq] at heidx
        exact hne (heidx ▸ rfl)
      · rintro ⟨e, he, helayer, heidx⟩
        obtain ⟨heU, hek⟩ := hdelmem e he
        have hin : i' ∈ used := hused ▸ (hcorr s.layer hlayer i' hi').mpr ⟨e, heU, helayer, heidx⟩
        apply Finset.mem_erase_of_ne_of_mem _ hin
        intro hc
        have hbe := hbound e heU
        have hslot : e.2 = s := slot_eq_of_slotIndex_eq a hbe.2.1 hsx helayer (by
          rw [heidx, hc])
        have := pairwise_snd_inj hpair heU hmem (by simpa using hslot)
        rw [this] at hek
        exact hek rfl
    · have hgd : (a.layerSlots.set s.layer (used.erase idx)).getD layer ∅
          = a.layerSlots.getD layer ∅ := by
        rcases Nat.lt_or_ge layer a.layerSlots.length with hll | hll
        · rw [List.getD_eq_getElem _ _ (by simpa using hll),
            List.getElem_set_ne (fun hc => hsame hc.symm), List.getD_eq_getElem _ _ hll]
        · rw [List.getD_eq_default _ _ (by simpa using hll), List.getD_eq_default _ _ hll]
      rw [hgd]
      constructor
      · intro hmem'
        obtain ⟨e, he, helayer, heidx⟩ := (hcorr layer hlayer i' hi').mp hmem'
        refine ⟨e, hdelmem' e he ?_, helayer, heidx⟩
        intro hek
        have heq := hkey_unique e he hek
        rw [heq] at helayer
        exact hsame (helayer ▸ rfl)
      · rintro ⟨e, he, helayer, heidx⟩
        exact (hcorr layer hlayer i' hi').mpr ⟨e, (hdelmem e he).1, helayer, heidx⟩
  · show ((a.layerSlots.set s.layer (used.erase idx)).map Finset.card).sum
        = (mapDelete a.usedSlots k).length
    have hacc := sum_card_set a.layerSlots s.layer (used.erase idx) hlayerlen
    rw [Finset.card_erase_of_mem (hused ▸ hidxmem), ← hused] at hacc
    have hcardpos : 0 < used.card := Finset.card_pos.mpr ⟨idx, hused ▸ hidxmem⟩
    have hdl := mapDelete_length hnd hget
    simp only [getUsedCount] at hcount
    omega
  · show ((a.layerSlots.set s.layer (used.erase idx)).map Finset.card).sum + 1
        = a.getUsedCount
    have hacc := sum_card_set a.layerSlots s.layer (used.erase idx) hlayerlen
    rw [Finset.card_erase_of_mem (hused ▸ hidxmem), ← hused] at hacc
    have hcardpos : 0 < used.card := Finset.card_pos.mpr ⟨idx, hused ▸ hidxmem⟩
    simp only [getUsedCount]
    omega

end SlotAllocator
/-! ## Claims C5 and C10 — slot allocator -/

namespace SlotAllocator

variable {κ : Type} [DecidableEq κ]

/-- States reachable from a fresh `new SlotAllocator(maxLayers, tilesPerRow)`
by any sequence of `allocate` and `free` calls. -/
inductive Reachable (maxLayers tilesPerRow : Nat) : SlotAllocator κ → Prop
  | init : Reachable maxLayers tilesPerRow (SlotAllocator.init maxLayers tilesPerRow)
  | alloc (a : SlotAllocator κ) (k : κ) : Reachable maxLayers tilesPerRow a →
      Reachable maxLayers tilesPerRow (a.allocate k).2
  | free (a : SlotAllocator κ) (k : κ) : Reachable maxLayers tilesPerRow a →
      Reachable maxLayers tilesPerRow (a.free k)

/-- Every reachable allocator state is well-formed. -/
theorem reachable_WF {maxLayers tilesPerRow : Nat} {a : SlotAllocator κ}
    (h : Reachable maxLayers tilesPerRow a) : WF a := by
  induction h with
  | init => exact init_WF maxLayers tilesPerRow
  | alloc a k hr ih =>
    rcases hget : mapGet a.usedSlots k with - | s
    · rcases hfind : a.findFreeSlot with - | si
      · rw [allocate_absent_none_eq a hget hfind]
        exact ih
      · obtain ⟨s, i⟩ := si
        exact (allocate_fresh_spec a k ih hget hfind).1
    · rw [allocate_mem_eq a hget]
      exact ih
  | free a k hr ih =>
    rcases hget : mapGet a.usedSlots k with - | s
    · rw [free_absent_eq a hget]
      exact ih
    · exact (free_present_spec a k ih hget).1

/-- A free position `(layer, i)` of the allocator (in-range and unused). -/
def FreePos (a : SlotAllocator κ) (layer i : Nat) : Prop :=
  layer < a.maxLayers ∧ i < a.tilesPerLayer ∧ i ∉ a.layerSlots.getD layer ∅

end SlotAllocator

/-- Claim C10: after any sequence of `allocate`/`free` calls from a fresh
allocator, `getUsedCount()` equals the number of keys in `usedSlots`; entries
with the same slot have the same key (distinct keys occupy distinct slots);
every mapped slot's index is marked used in its layer's set; `free` of an
absent key changes nothing; and `allocate` of a fresh key followed by `free`
of that key restores the used count exactly. -/
theorem c10_allocator_invariants (maxLayers tilesPerRow : Nat) (a : SlotAllocator Nat)
    (hreach : SlotAllocator.Reachable maxLayers tilesPerRow a) :
    a.getUsedCount = a.usedSlots.length ∧
    (∀ e₁ ∈ a.usedSlots, ∀ e₂ ∈ a.usedSlots, e₁.2 = e₂.2 → e₁.1 = e₂.1) ∧
    (∀ e ∈ a.usedSlots, a.slotIndex e.2 ∈ a.layerSlots.getD e.2.layer ∅) ∧
    (∀ k, mapGet a.usedSlots k = none → a.free k = a) ∧
    (∀ k, mapGet a.usedSlots k = none →
      ((a.allocate k).2.free k).getUsedCount = a.getUsedCount) := by
  have hWF := SlotAllocator.reachable_WF hreach
  obtain ⟨hlen, hsub, hnd, hbound, hpair, hcorr, hcount⟩ := hWF
  have hWF' : SlotAllocator.WF a := ⟨hlen, hsub, hnd, hbound, hpair, hcorr, hcount⟩
  refine ⟨hcount, ?_, ?_, ?_, ?_⟩
  · intro e₁ h₁ e₂ h₂ h
    have := pairwise_snd_inj hpair h₁ h₂ h
    rw [this]
  · intro e he
    obtain ⟨hl, hx, hy⟩ := hbound e he
    exact (hcorr e.2.layer hl _ (SlotAllocator.slotIndex_lt a e.2 hx hy)).mpr ⟨e, he, rfl, rfl⟩
  · intro k hget
    exact SlotAllocator.free_absent_eq a hget
  · intro k hget
    rcases hfind : a.findFreeSlot with - | si
    · rw [SlotAllocator.allocate_absent_none_eq a hget hfind,
        SlotAllocator.free_absent_eq a hget]
    · obtain ⟨s, i⟩ := si
      obtain ⟨hWF2, husedeq, hcnt2, -, -, -⟩ :=
        SlotAllocator.allocate_fresh_spec a k hWF' hget hfind
      have hget2 : mapGet (a.allocate k).2.usedSlots k = some s := by
        rw [husedeq]
        rw [mapGet_append_of_absent _ hget]
        simp [mapGet_cons]
      obtain ⟨-, -, hcnt3⟩ := SlotAllocator.free_present_spec (a.allocate k).2 k hWF2 hget2
      omega

/-- Witness for C10: the allocator after `allocate(5)` on a fresh 1-layer 2×2
allocator is reachable, and the stated invariants hold there. -/
theorem c10_allocator_invariants_witness :
    (((SlotAllocator.init 1 2 : SlotAllocator Nat).allocate 5).2.getUsedCount
        = ((SlotAllocator.init 1 2 : SlotAllocator Nat).allocate 5).2.usedSlots.length ∧
      (∀ e₁ ∈ ((SlotAllocator.init 1 2 : SlotAllocator Nat).allocate 5).2.usedSlots,
        ∀ e₂ ∈ ((SlotAllocator.init 1 2 : SlotAllocator Nat).allocate 5).2.usedSlots,
          e₁.2 = e₂.2 → e₁.1 = e₂.1) ∧
      (∀ e ∈ ((SlotAllocator.init 1 2 : SlotAllocator Nat).allocate 5).2.usedSlots,
        ((SlotAllocator.init 1 2 : SlotAllocator Nat).allocate 5).2.slotIndex e.2
          ∈ ((SlotAllocator.init 1 2 : SlotAllocator Nat).allocate 5).2.layerSlots.getD
              e.2.layer ∅) ∧
      (∀ k, mapGet ((SlotAllocator.init 1 2 : SlotAllocator Nat).allocate 5).2.usedSlots k = none →
        ((SlotAllocator.init 1 2 : SlotAllocator Nat).allocate 5).2.free k
          = ((SlotAllocator.init 1 2 : SlotAllocator Nat).allocate 5).2) ∧
      (∀ k, mapGet ((SlotAllocator.init 1 2 : SlotAllocator Nat).allocate 5).2.usedSlots k = none →
        ((((SlotAllocator.init 1 2 : SlotAllocator Nat).allocate 5).2.allocate k).2.free
            k).getUsedCount
          = ((SlotAllocator.init 1 2 : SlotAllocator Nat).allocate 5).2.getUsedCount)) :=
  c10_allocator_invariants 1 2 _
    (SlotAllocator.Reachable.alloc _ 5 SlotAllocator.Reachable.init)
/-- Claim C5: `allocate` is idempotent on an already-allocated key (returns the
recorded slot, state unchanged); on a fresh key it returns the free position
with the lowest layer and, within it, the lowest slot index (so freed
positions are reused before advancing); it returns `null` exactly when all
`maxLayers * tilesPerRow^2` slots are used; and on a 1-layer 2×2 allocator,
after allocating `t0..t3`, freeing `t1` and allocating `tN`, `tN` occupies
`(layer 0, slotX 1, slotY 0)`. -/
theorem c5_allocate_spec (maxLayers tilesPerRow : Nat) (a : SlotAllocator Nat)
    (hreach : SlotAllocator.Reachable maxLayers tilesPerRow a) (k : Nat) :
    (∀ s, mapGet a.usedSlots k = some s → a.allocate k = (some s, a)) ∧
    (mapGet a.usedSlots k = none →
      (∀ s, (a.allocate k).1 = some s →
        SlotAllocator.FreePos a s.layer (a.slotIndex s) ∧
        ∀ l' i', SlotAllocator.FreePos a l' i' →
          s.layer < l' ∨ (s.layer = l' ∧ a.slotIndex s ≤ i')) ∧
      ((a.allocate k).1 = none ↔ a.getUsedCount = a.getTotalSlots)) ∧
    (((((((SlotAllocator.init 1 2 : SlotAllocator Nat).allocate 0).2.allocate 1).2.allocate
        2).2.allocate 3).2.free 1).allocate 100).1 = some ⟨0, 1, 0⟩ := by
  have hWF := SlotAllocator.reachable_WF hreach
  refine ⟨fun s h => SlotAllocator.allocate_mem_eq a h, fun hfresh => ⟨?_, ?_⟩, by decide⟩
  · intro s hsome
    rcases hfind : a.findFreeSlot with - | si
    · rw [SlotAllocator.allocate_absent_none_eq a hfresh hfind] at hsome
      exact absurd hsome (by simp)
    · obtain ⟨s', i⟩ := si
      rw [SlotAllocator.allocate_absent_some_eq a hfresh hfind] at hsome
      simp only [Option.some_inj] at hsome
      subst hsome
      obtain ⟨hl, hi, -, hnot, hminI, hfull, -⟩ :=
        SlotAllocator.findFreeSlot_some_spec a hWF hfind
      obtain ⟨-, -, -, hidx⟩ := SlotAllocator.findFreeSlot_coords a hWF hfind
      refine ⟨⟨hl, hidx ▸ hi, hidx ▸ hnot⟩, ?_⟩
      intro l' i' hfp
      obtain ⟨hl', hi', hnot'⟩ := hfp
      rcases Nat.lt_trichotomy l' s'.layer with hcmp | hcmp | hcmp
      · exact absurd (hfull l' hcmp i' hi') hnot'
      · subst hcmp
        right
        refine ⟨rfl, ?_⟩
        by_contra hc
        push_neg at hc
        rw [hidx] at hc
        exact hnot' (hminI i' hc)
      · left
        exact hcmp
  · constructor
    · intro hnone
      rcases hfind : a.findFreeSlot with - | si
      · exact SlotAllocator.findFreeSlot_none_spec a hWF hfind
      · obtain ⟨s', i⟩ := si
        rw [SlotAllocator.allocate_absent_some_eq a hfresh hfind] at hnone
        exact absurd hnone (by simp)
    · intro hfullcount
      rcases hfind : a.findFreeSlot with - | si
      · rw [SlotAllocator.allocate_absent_none_eq a hfresh hfind]
      · obtain ⟨s', i⟩ := si
        have := SlotAllocator.findFreeSlot_some_not_full a hWF hfind
        omega

/-- Witness for C5 on the fresh 1-layer 2×2 allocator with key 0. -/
theorem c5_allocate_spec_witness :
    ((∀ s, mapGet (SlotAllocator.init 1 2 : SlotAllocator Nat).usedSlots 0 = some s →
        (SlotAllocator.init 1 2 : SlotAllocator Nat).allocate 0
          = (some s, SlotAllocator.init 1 2)) ∧
      (mapGet (SlotAllocator.init 1 2 : SlotAllocator Nat).usedSlots 0 = none →
        (∀ s, ((SlotAllocator.init 1 2 : SlotAllocator Nat).allocate 0).1 = some s →
          SlotAllocator.FreePos (SlotAllocator.init 1 2 : SlotAllocator Nat) s.layer
            ((SlotAllocator.init 1 2 : SlotAllocator Nat).slotIndex s) ∧
          ∀ l' i', SlotAllocator.FreePos (SlotAllocator.init 1 2 : SlotAllocator Nat) l' i' →
            s.layer < l' ∨ (s.layer = l' ∧
              (SlotAllocator.init 1 2 : SlotAllocator Nat).slotIndex s ≤ i')) ∧
        (((SlotAllocator.init 1 2 : SlotAllocator Nat).allocate 0).1 = none ↔
          (SlotAllocator.init 1 2 : SlotAllocator Nat).getUsedCount
            = (SlotAllocator.init 1 2 : SlotAllocator Nat).getTotalSlots)) ∧
      (((((((SlotAllocator.init 1 2 : SlotAllocator Nat).allocate 0).2.allocate 1).2.allocate
          2).2.allocate 3).2.free 1).allocate 100).1 = some ⟨0, 1, 0⟩) :=
  c5_allocate_spec 1 2 (SlotAllocator.init 1 2) SlotAllocator.Reachable.init 0

/-! ## Claim C6 — `getBestAvailableLod` -/

theorem revRange_find?_eq_some {t l : Nat} {p : Nat → Bool}
    (h : (List.range (t + 1)).reverse.find? p = some l) :
    l ≤ t ∧ p l ∧ ∀ j, l < j → j ≤ t → ¬ p j := by
  induction t with
  | zero =>
    have h0 : (List.range 1).reverse = [0] := by decide
    rw [h0] at h
    rcases hp : p 0 with - | -
    · rw [List.find?_cons, hp] at h
      simp at h
    · rw [List.find?_cons, hp] at h
      simp only [Option.some_inj] at h
      subst h
      exact ⟨Nat.le_refl 0, hp, fun j hj1 hj2 => by omega⟩
  | succ m ih =>
    have hrev : (List.range (m + 2)).reverse = (m + 1) :: (List.range (m + 1)).reverse := by
      rw [List.range_succ, List.reverse_append]
      rfl
    rw [hrev, List.find?_cons] at h
    rcases hp : p (m + 1) with - | -
    · rw [hp] at h
      obtain ⟨hle, hpl, hmax⟩ := ih h
      refine ⟨Nat.le_succ_of_le hle, hpl, ?_⟩
      intro j hj1 hj2
      rcases Nat.lt_or_ge j (m + 1) with hlt | hge
      · exact hmax j hj1 (Nat.lt_succ_iff.mp hlt)
      · have : j = m + 1 := by omega
        rw [this]
        simp [hp]
    · rw [hp] at h
      simp only [Option.some_inj] at h
      subst h
      exact ⟨Nat.le_refl _, hp, fun j hj1 hj2 => by omega⟩

theorem revRange_find?_eq_none {t : Nat} {p : Nat → Bool}
    (h : (List.range (t + 1)).reverse.find? p = none) : ∀ j ≤ t, ¬ p j := by
  intro j hj
  have hmem : j ∈ (List.range (t + 1)).reverse := by
    rw [List.mem_reverse]
    exact List.mem_range.mpr (Nat.lt_succ_of_le hj)
  exact List.find?_eq_none.mp h j hmem

theorem range'_find?_eq_some {s n l : Nat} {p : Nat → Bool}
    (h : (List.range' s n).find? p = some l) :
    s ≤ l ∧ l < s + n ∧ p l ∧ ∀ j, s ≤ j → j < l → ¬ p j := by
  induction n generalizing s with
  | zero => simp [List.range'] at h
  | succ m ih =>
    rw [show List.range' s (m + 1) = s :: List.range' (s + 1) m from rfl,
      List.find?_cons] at h
    rcases hp : p s with - | -
    · rw [hp] at h
      obtain ⟨h1, h2, h3, h4⟩ := ih h
      refine ⟨by omega, by omega, h3, ?_⟩
      intro j hj1 hj2
      rcases Nat.eq_or_lt_of_le hj1 with rfl | hlt
      · simp [hp]
      · exact h4 j hlt hj2
    · rw [hp] at h
      simp only [Option.some_inj] at h
      subst h
      exact ⟨Nat.le_refl _, by omega, hp, fun j hj1 hj2 => by omega⟩

theorem range'_find?_eq_none {s n : Nat} {p : Nat → Bool}
    (h : (List.range' s n).find? p = none) : ∀ j, s ≤ j → j < s + n → ¬ p j := by
  intro j hj1 hj2
  exact List.find?_eq_none.mp h j (List.mem_range'_1.mpr ⟨hj1, hj2⟩)

/-- Claim C6: `getBestAvailableLod(image, target)` (for `target ≤ maxLod`)
returns the largest cached lod `≤ target` when one exists; otherwise the
smallest cached lod in `(target, maxLod]` when one exists; otherwise `-1` —
so a cached coarser LOD is always preferred over a cached finer one. -/
theorem c6_getBestAvailableLod_spec (st : TileDataStore) (imageIndex targetLod : Nat)
    (htarget : targetLod ≤ st.maxLod) :
    ((∃ l ≤ targetLod, st.has imageIndex l) →
      ∃ l : Nat, st.getBestAvailableLod imageIndex targetLod = l ∧ l ≤ targetLod ∧
        st.has imageIndex l ∧ ∀ l' ≤ targetLod, st.has imageIndex l' → l' ≤ l) ∧
    ((¬ ∃ l ≤ targetLod, st.has imageIndex l) →
      (∃ l, targetLod < l ∧ l ≤ st.maxLod ∧ st.has imageIndex l) →
      ∃ l : Nat, st.getBestAvailableLod imageIndex targetLod = l ∧ targetLod < l ∧
        l ≤ st.maxLod ∧ st.has imageIndex l ∧
        ∀ l', targetLod < l' → l' ≤ st.maxLod → st.has imageIndex l' → l ≤ l') ∧
    ((∀ l ≤ st.maxLod, ¬ st.has imageIndex l) →
      st.getBestAvailableLod imageIndex targetLod = -1) := by
  rcases hdown : (List.range (targetLod + 1)).reverse.find?
      (fun lod => st.has imageIndex lod) with - | l
  · have hnone := revRange_find?_eq_none hdown
    rcases hup : (List.range' (targetLod + 1) (st.maxLod - targetLod)).find?
        (fun lod => st.has imageIndex lod) with - | l
    · have hnone' := range'_find?_eq_none hup
      have hres : st.getBestAvailableLod imageIndex targetLod = -1 := by
        rw [TileDataStore.getBestAvailableLod, hdown, hup]
      refine ⟨?_, ?_, fun _ => hres⟩
      · rintro ⟨l, hl, hhas⟩
        exact absurd hhas (by simpa using hnone l hl)
      · rintro - ⟨l, hl1, hl2, hhas⟩
        refine absurd hhas (by simpa using hnone' l (by omega) (by omega))
    · obtain ⟨h1, h2, h3, h4⟩ := range'_find?_eq_some hup
      have hres : st.getBestAvailableLod imageIndex targetLod = l := by
        rw [TileDataStore.getBestAvailableLod, hdown, hup]
      refine ⟨?_, ?_, ?_⟩
      · rintro ⟨l', hl', hhas⟩
        exact absurd hhas (by simpa using hnone l' hl')
      · rintro - -
        refine ⟨l, hres, by omega, by omega, by simpa using h3, ?_⟩
        intro l' hl'1 hl'2 hhas
        by_contra hc
        push_neg at hc
        exact (h4 l' (by omega) hc) (by simpa using hhas)
      · intro hall
        exact absurd (by simpa using h3) (hall l (by omega))
  · obtain ⟨h1, h2, h3⟩ := revRange_find?_eq_some hdown
    have hres : st.getBestAvailableLod imageIndex targetLod = l := by
      rw [TileDataStore.getBestAvailableLod, hdown]
    refine ⟨?_, ?_, ?_⟩
    · rintro -
      refine ⟨l, hres, h1, by simpa using h2, ?_⟩
      intro l' hl' hhas
      by_contra hc
      push_neg at hc
      exact (h3 l' hc hl') (by simpa using hhas)
    · rintro hno -
      exact absurd ⟨l, h1, by simpa using h2⟩ hno
    · intro hall
      exact absurd (by simpa using h2) (hall l (by omega))

/-- Witness for C6 on a store caching lods 1 and 3 for image 7, target 2. -/
theorem c6_getBestAvailableLod_spec_witness :
    ((∃ l ≤ 2, (((TileDataStore.initStore 4).set 7 1 [] none).set 7 3 [] none).has 7 l) →
      ∃ l : Nat, (((TileDataStore.initStore 4).set 7 1 [] none).set 7 3 [] none).getBestAvailableLod
          7 2 = l ∧ l ≤ 2 ∧
        (((TileDataStore.initStore 4).set 7 1 [] none).set 7 3 [] none).has 7 l ∧
        ∀ l' ≤ 2, (((TileDataStore.initStore 4).set 7 1 [] none).set 7 3 [] none).has 7 l' →
          l' ≤ l) ∧
    ((¬ ∃ l ≤ 2, (((TileDataStore.initStore 4).set 7 1 [] none).set 7 3 [] none).has 7 l) →
      (∃ l, 2 < l ∧
        l ≤ (((TileDataStore.initStore 4).set 7 1 [] none).set 7 3 [] none).maxLod ∧
        (((TileDataStore.initStore 4).set 7 1 [] none).set 7 3 [] none).has 7 l) →
      ∃ l : Nat, (((TileDataStore.initStore 4).set 7 1 [] none).set 7 3 [] none).getBestAvailableLod
          7 2 = l ∧ 2 < l ∧
        l ≤ (((TileDataStore.initStore 4).set 7 1 [] none).set 7 3 [] none).maxLod ∧
        (((TileDataStore.initStore 4).set 7 1 [] none).set 7 3 [] none).has 7 l ∧
        ∀ l', 2 < l' →
          l' ≤ (((TileDataStore.initStore 4).set 7 1 [] none).set 7 3 [] none).maxLod →
          (((TileDataStore.initStore 4).set 7 1 [] none).set 7 3 [] none).has 7 l' → l ≤ l') ∧
    ((∀ l ≤ (((TileDataStore.initStore 4).set 7 1 [] none).set 7 3 [] none).maxLod,
        ¬ (((TileDataStore.initStore 4).set 7 1 [] none).set 7 3 [] none).has 7 l) →
      (((TileDataStore.initStore 4).set 7 1 [] none).set 7 3 [] none).getBestAvailableLod 7 2
        = -1) :=
  c6_getBestAvailableLod_spec (((TileDataStore.initStore 4).set 7 1 [] none).set 7 3 [] none)
    7 2 (by decide)

/-! ## Claim C4 — eviction priorities -/

/-- The eviction priority the claim describes: 2 when visible, else 1 when the
lod equals the image's requested LOD as returned by `getRequestedLod`
(documented default 0), else 0.  Modelled from the claim's words, to be
compared with the candidate priorities the code computes. -/
def claimPriority (st : TileDataStore) (visibleImages : List Nat)
    (imageIndex lodLevel : Nat) : Nat :=
  if imageIndex ∈ visibleImages then 2
  else if lodLevel = st.getRequestedLod imageIndex then 1 else 0

/-- Unpacking membership in the candidate list built by `evictStale`. -/
theorem mem_buildCandidates_elim (st : TileDataStore) (rendered : List (Nat × Nat))
    (visible : List Nat) {c : TileDataStore.Candidate}
    (hc : c ∈ st.buildCandidates rendered visible) :
    (c.imageIndex, c.lodLevel) ∉ rendered ∧ ¬ st.isLoading c.imageIndex c.lodLevel ∧
    c.priority = (if c.imageIndex ∈ visible then 2
      else if mapGet st.requestedLod c.imageIndex = some c.lodLevel then 1 else 0) ∧
    c.keys = (mapGet st.tileKeys c.imageIndex).bind (fun m => mapGet m c.lodLevel) ∧
    c.tileCount = ((c.keys).map List.length).getD 0 ∧
    (∃ lodMap, (c.imageIndex, lodMap) ∈ st.data ∧ ∃ v, (c.lodLevel, v) ∈ lodMap) := by
  simp only [TileDataStore.buildCandidates, List.mem_flatMap] at hc
  obtain ⟨ent, hent, hmem⟩ := hc
  rw [List.mem_filterMap] at hmem
  obtain ⟨lent, hlent, hf⟩ := hmem
  by_cases h1 : (ent.1, lent.1) ∈ rendered
  · rw [if_pos h1] at hf
    simp at hf
  · rw [if_neg h1] at hf
    by_cases h2 : (ent.1, lent.1) ∈ st.loadingKeys
    · rw [if_pos h2] at hf
      simp at hf
    · rw [if_neg h2] at hf
      simp only [Option.some_inj] at hf
      subst hf
      refine ⟨h1, by simpa [TileDataStore.isLoading] using h2, ?_, rfl, rfl,
        ⟨ent.2, ?_, lent.2, ?_⟩⟩
      · by_cases hv : ent.1 ∈ visible <;> simp [hv]
      · exact (by simpa using hent)
      · exact (by simpa using hlent)

/-- Every cached pair outside the rendered set and not loading produces a
candidate. -/
theorem mem_buildCandidates_intro (st : TileDataStore) (rendered : List (Nat × Nat))
    (visible : List Nat) {i l : Nat} (hhas : st.has i l) (hr : (i, l) ∉ rendered)
    (hl : ¬ st.isLoading i l) :
    ∃ c ∈ st.buildCandidates rendered visible, c.imageIndex = i ∧ c.lodLevel = l := by
  simp only [TileDataStore.has] at hhas
  rcases hget : mapGet st.data i with - | lodMap
  · rw [hget] at hhas
    simp at hhas
  · rw [hget] at hhas
    have hentmem : (i, lodMap) ∈ st.data := mem_of_mapGet_eq_some hget
    simp only [mapHas, Option.isSome_iff_exists] at hhas
    obtain ⟨v, hv⟩ := hhas
    have hlentmem : (l, v) ∈ lodMap := mem_of_mapGet_eq_some hv
    have hnl : (i, l) ∉ st.loadingKeys := by simpa [TileDataStore.isLoading] using hl
    have hx : (TileDataStore.Candidate.mk i l
        (if i ∈ visible then 2 else if mapGet st.requestedLod i = some l then 1 else 0)
        ((((mapGet st.tileKeys i).bind (fun m => mapGet m l)).map List.length).getD 0)
        ((mapGet st.tileKeys i).bind (fun m => mapGet m l)))
        ∈ st.buildCandidates rendered visible := by
      simp only [TileDataStore.buildCandidates, List.mem_flatMap]
      refine ⟨(i, lodMap), hentmem, ?_⟩
      rw [List.mem_filterMap]
      refine ⟨(l, v), hlentmem, ?_⟩
      rw [if_neg hr, if_neg hnl]
    exact ⟨_, hx, rfl, rfl⟩

/-- Counterexample to claim C4 as stated: in a store caching (image 0, lod 0)
where `setRequestedLod` was never called, the pair is off-screen and
`getRequestedLod` returns the documented default 0 = lod, so the claim
assigns priority 1 — but `evictStale` compares with the raw `Map.get`
(`undefined === 0` is false) and builds the candidate with priority 0. -/
theorem c4_priority_counterexample :
    ((TileDataStore.initStore 4).set 0 0 [] none).getRequestedLod 0 = 0 ∧
    (((TileDataStore.initStore 4).set 0 0 [] none).buildCandidates [] []).map
      (fun c => (c.imageIndex, c.lodLevel, c.priority)) = [(0, 0, 0)] ∧
    claimPriority ((TileDataStore.initStore 4).set 0 0 [] none) [] 0 0 = 1 ∧
    (0 : Nat) ≠ 1 := by
  refine ⟨by decide, by decide, by decide, by decide⟩

/-- Claim C4 (amended): `evictStale` excludes rendered and loading pairs, and
assigns priority 2 to visible pairs; for off-screen pairs it assigns
priority 1 exactly when the `requestedLod` map contains an entry for the
image equal to the pair's lod — an image never passed to `setRequestedLod`
has no entry, so all its off-screen pairs (including lod 0, where
`getRequestedLod` would report the default 0) get priority 0.  Every cached
non-rendered non-loading pair yields a candidate. -/
theorem c4_evict_priority_amended (st : TileDataStore) (rendered : List (Nat × Nat))
    (visible : List Nat) :
    (∀ c ∈ st.buildCandidates rendered visible,
      (c.imageIndex, c.lodLevel) ∉ rendered ∧ ¬ st.isLoading c.imageIndex c.lodLevel ∧
      c.priority = (if c.imageIndex ∈ visible then 2
        else if mapGet st.requestedLod c.imageIndex = some c.lodLevel then 1 else 0)) ∧
    (∀ i l, st.has i l → (i, l) ∉ rendered → ¬ st.isLoading i l →
      ∃ c ∈ st.buildCandidates rendered visible, c.imageIndex = i ∧ c.lodLevel = l) := by
  constructor
  · intro c hc
    obtain ⟨h1, h2, h3, -⟩ := mem_buildCandidates_elim st rendered visible hc
    exact ⟨h1, h2, h3⟩
  · intro i l hhas hr hl
    exact mem_buildCandidates_intro st rendered visible hhas hr hl

/-- Witness for the amended C4 on the counterexample store. -/
theorem c4_evict_priority_amended_witness :
    (∀ c ∈ ((TileDataStore.initStore 4).set 0 0 [] none).buildCandidates [] [],
      (c.imageIndex, c.lodLevel) ∉ ([] : List (Nat × Nat)) ∧
      ¬ ((TileDataStore.initStore 4).set 0 0 [] none).isLoading c.imageIndex c.lodLevel ∧
      c.priority = (if c.imageIndex ∈ ([] : List Nat) then 2
        else if mapGet ((TileDataStore.initStore 4).set 0 0 [] none).requestedLod c.imageIndex
            = some c.lodLevel then 1 else 0)) ∧
    (∀ i l, ((TileDataStore.initStore 4).set 0 0 [] none).has i l →
      (i, l) ∉ ([] : List (Nat × Nat)) →
      ¬ ((TileDataStore.initStore 4).set 0 0 [] none).isLoading i l →
      ∃ c ∈ ((TileDataStore.initStore 4).set 0 0 [] none).buildCandidates [] [],
        c.imageIndex = i ∧ c.lodLevel = l) :=
  c4_evict_priority_amended ((TileDataStore.initStore 4).set 0 0 [] none) [] []

/-! ## Further map lemmas and freeing a batch of keys -/

theorem mapGet_mapSet_self {κ ν : Type} [DecidableEq κ] (m : List (κ × ν)) (k : κ) (v : ν) :
    mapGet (mapSet m k v) k = some v := by
  induction m with
  | nil => simp [mapSet, mapGet_cons]
  | cons e rest ih =>
    by_cases he : e.1 = k
    · simp [mapSet, he, mapGet_cons]
    · simp [mapSet, he, mapGet_cons, ih]

theorem mapGet_mapUpdate_self {κ ν : Type} [DecidableEq κ] (m : List (κ × ν)) (k : κ)
    (f : ν → ν) : mapGet (mapUpdate m k f) k = (mapGet m k).map f := by
  induction m with
  | nil => simp [mapUpdate, mapGet]
  | cons e rest ih =>
    by_cases he : e.1 = k
    · simp [mapUpdate, he, mapGet_cons]
    · simp only [mapUpdate, List.map_cons, if_neg he]
      rw [mapGet_cons, mapGet_cons, if_neg he, if_neg he]
      simpa [mapUpdate] using ih

namespace SlotAllocator

variable {κ : Type} [DecidableEq κ]

/-- `free k` does not affect the mapping of any other key. -/
theorem free_mapGet_ne (a : SlotAllocator κ) {k k' : κ} (h : k' ≠ k) :
    mapGet (a.free k).usedSlots k' = mapGet a.usedSlots k' := by
  rcases hget : mapGet a.usedSlots k with - | s
  · rw [free_absent_eq a hget]
  · rw [free_present_eq a hget]
    exact mapGet_mapDelete_ne _ h

/-- Freeing a duplicate-free batch of keys that are all mapped reduces the
used count by exactly the batch size and preserves well-formedness. -/
theorem foldl_free_spec (ks : List κ) (a : SlotAllocator κ) (hWF : WF a) (hnd : ks.Nodup)
    (hpres : ∀ k ∈ ks, (mapGet a.usedSlots k).isSome) :
    WF (ks.foldl SlotAllocator.free a) ∧
    (ks.foldl SlotAllocator.free a).getUsedCount + ks.length = a.getUsedCount := by
  induction ks generalizing a with
  | nil => exact ⟨hWF, by simp⟩
  | cons k rest ih =>
    have hk := hpres k (List.mem_cons_self _ _)
    rw [Option.isSome_iff_exists] at hk
    obtain ⟨s, hs⟩ := hk
    obtain ⟨hWF', -, hcnt⟩ := free_present_spec a k hWF hs
    obtain ⟨hndk, hndrest⟩ := List.nodup_cons.mp hnd
    have hpres' : ∀ k' ∈ rest, (mapGet (a.free k).usedSlots k').isSome := by
      intro k' hk'
      rw [free_mapGet_ne a (fun hc => hndk (by rw [← hc]; exact hk'))]
      exact hpres k' (List.mem_cons_of_mem _ hk')
    obtain ⟨hWF'', hcnt''⟩ := ih (a.free k) hWF' hndrest hpres'
    rw [List.foldl_cons]
    refine ⟨hWF'', ?_⟩
    simp only [List.length_cons]
    omega

end SlotAllocator
/-! ## Claim C2 — `processTiles` and partial-load rollback -/

/-- Store lemma: after `set(image, lod, instances, tileKeys)` both lookups
return the stored values. -/
theorem TileDataStore.set_get_self (st : TileDataStore) (i l : Nat)
    (ins : List TileInstance) (ks : List TileKey) :
    (st.set i l ins (some ks)).get i l = some ins ∧
    (mapGet ((st.set i l ins (some ks)).tileKeys) i).bind (fun m => mapGet m l)
      = some ks := by
  constructor
  · show (mapGet (mapUpdate (if mapHas st.data i then st.data else mapSet st.data i [])
        i (fun m => mapSet m l ins)) i).bind (fun lodMap => mapGet lodMap l) = some ins
    by_cases hh : mapHas st.data i
    · rw [if_pos hh]
      simp only [mapHas, Option.isSome_iff_exists] at hh
      obtain ⟨lodMap, hlm⟩ := hh
      rw [mapGet_mapUpdate_self, hlm]
      simp only [Option.map_some', Option.some_bind]
      exact mapGet_mapSet_self _ _ _
    · rw [if_neg hh]
      rw [mapGet_mapUpdate_self, mapGet_mapSet_self]
      simp only [Option.map_some', Option.some_bind]
      exact mapGet_mapSet_self _ _ _
  · show (mapGet (mapUpdate (if mapHas st.tileKeys i then st.tileKeys
        else mapSet st.tileKeys i []) i (fun m => mapSet m l ks)) i).bind
          (fun m => mapGet m l) = some ks
    by_cases hh : mapHas st.tileKeys i
    · rw [if_pos hh]
      simp only [mapHas, Option.isSome_iff_exists] at hh
      obtain ⟨m0, hm0⟩ := hh
      rw [mapGet_mapUpdate_self, hm0]
      simp only [Option.map_some', Option.some_bind]
      exact mapGet_mapSet_self _ _ _
    · rw [if_neg hh]
      rw [mapGet_mapUpdate_self, mapGet_mapSet_self]
      simp only [Option.map_some', Option.some_bind]
      exact mapGet_mapSet_self _ _ _

/-- Invariants of the `processTiles` loop: well-formedness is preserved, one
slot is consumed per pushed tile key, pushed keys come from the decoded tiles
and are distinct and live, instance and key lists stay aligned, and existing
mappings are untouched. -/
theorem processLoop_spec (imageIndex lodLevel : Nat)
    (sts imageX imageY rotation scale cosr sinr : ℚ)
    (tiles : List DecodeTileInfo) (tm : SlotAllocator TileKey)
    (hWF : SlotAllocator.WF tm)
    (hfresh : ∀ t ∈ tiles,
      mapGet tm.usedSlots (TileKey.mk imageIndex lodLevel t.tx t.ty) = none)
    (hnd : (tiles.map (fun t => (t.tx, t.ty))).Nodup) :
    SlotAllocator.WF (processLoop imageIndex lodLevel sts imageX imageY rotation scale
      cosr sinr tiles tm).2 ∧
    (processLoop imageIndex lodLevel sts imageX imageY rotation scale cosr sinr
      tiles tm).1.instances.length
      = (processLoop imageIndex lodLevel sts imageX imageY rotation scale cosr sinr
          tiles tm).1.tileKeyList.length ∧
    ((processLoop imageIndex lodLevel sts imageX imageY rotation scale cosr sinr
        tiles tm).1.complete = true →
      (processLoop imageIndex lodLevel sts imageX imageY rotation scale cosr sinr
        tiles tm).1.tileKeyList.length = tiles.length) ∧
    (processLoop imageIndex lodLevel sts imageX imageY rotation scale cosr sinr
      tiles tm).2.getUsedCount
      = tm.getUsedCount + (processLoop imageIndex lodLevel sts imageX imageY rotation
          scale cosr sinr tiles tm).1.tileKeyList.length ∧
    (∀ k ∈ (processLoop imageIndex lodLevel sts imageX imageY rotation scale cosr sinr
        tiles tm).1.tileKeyList,
      ∃ t ∈ tiles, k = TileKey.mk imageIndex lodLevel t.tx t.ty) ∧
    (processLoop imageIndex lodLevel sts imageX imageY rotation scale cosr sinr
      tiles tm).1.tileKeyList.Nodup ∧
    (∀ k ∈ (processLoop imageIndex lodLevel sts imageX imageY rotation scale cosr sinr
        tiles tm).1.tileKeyList,
      (mapGet (processLoop imageIndex lodLevel sts imageX imageY rotation scale cosr sinr
        tiles tm).2.usedSlots k).isSome) ∧
    (∀ k v, mapGet tm.usedSlots k = some v →
      mapGet (processLoop imageIndex lodLevel sts imageX imageY rotation scale cosr sinr
        tiles tm).2.usedSlots k = some v) := by
  induction tiles generalizing tm with
  | nil =>
    refine ⟨hWF, rfl, fun _ => rfl, by simp [processLoop], by simp [processLoop],
      by simp [processLoop], by simp [processLoop], fun k v h => h⟩
  | cons t rest ih =>
    have hfresh0 := hfresh t (List.mem_cons_self _ _)
    have hnd' := hnd
    rw [List.map_cons, List.nodup_cons] at hnd'
    obtain ⟨hndhead, hndtail⟩ := hnd'
    rcases hfind : tm.findFreeSlot with - | si
    · have halloc : tm.allocate (TileKey.mk imageIndex lodLevel t.tx t.ty) = (none, tm) :=
        SlotAllocator.allocate_absent_none_eq tm hfresh0 hfind
      have hstep : processLoop imageIndex lodLevel sts imageX imageY rotation scale cosr
          sinr (t :: rest) tm
          = ({ (processLoop imageIndex lodLevel sts imageX imageY rotation scale cosr
                sinr rest tm).1 with complete := false },
             (processLoop imageIndex lodLevel sts imageX imageY rotation scale cosr
                sinr rest tm).2) := by
        rw [processLoop, halloc]
      obtain ⟨ih1, ih2, ih3, ih4, ih5, ih6, ih7, ih8⟩ := ih tm hWF
        (fun t' ht' => hfresh t' (List.mem_cons_of_mem _ ht')) hndtail
      rw [hstep]
      refine ⟨ih1, ih2, by simp, ih4, ?_, ih6, ih7, ih8⟩
      intro k hk
      obtain ⟨t', ht', hkt⟩ := ih5 k hk
      exact ⟨t', List.mem_cons_of_mem _ ht', hkt⟩
    · obtain ⟨s, i⟩ := si
      have halloc := SlotAllocator.allocate_absent_some_eq tm hfresh0 hfind
      obtain ⟨hWF2, hused2, hcnt2, -, -, -⟩ :=
        SlotAllocator.allocate_fresh_spec tm (TileKey.mk imageIndex lodLevel t.tx t.ty)
          hWF hfresh0 hfind
      set tm2 := (tm.allocate (TileKey.mk imageIndex lodLevel t.tx t.ty)).2 with htm2
      have hget2 : mapGet tm2.usedSlots (TileKey.mk imageIndex lodLevel t.tx t.ty)
          = some s := by
        rw [htm2, hused2, mapGet_append_of_absent _ hfresh0]
        simp [mapGet_cons]
      have hfresh2 : ∀ t' ∈ rest,
          mapGet tm2.usedSlots (TileKey.mk imageIndex lodLevel t'.tx t'.ty) = none := by
        intro t' ht'
        have hne : TileKey.mk imageIndex lodLevel t'.tx t'.ty
            ≠ TileKey.mk imageIndex lodLevel t.tx t.ty := by
          intro hc
          apply hndhead
          have htx : t'.tx = t.tx := congrArg TileKey.tx hc
          have hty : t'.ty = t.ty := congrArg TileKey.ty hc
          exact List.mem_map.mpr ⟨t', ht', by rw [htx, hty]⟩
        rw [htm2, hused2, mapGet_append_of_absent _ (hfresh t' (List.mem_cons_of_mem _ ht'))]
        rw [mapGet_cons, if_neg (fun hc => hne hc.symm)]
        rfl
      obtain ⟨ih1, ih2, ih3, ih4, ih5, ih6, ih7, ih8⟩ := ih tm2 hWF2 hfresh2 hndtail
      have hallocEq : tm.allocate (TileKey.mk imageIndex lodLevel t.tx t.ty)
          = (some s, tm2) := by
        rw [htm2, halloc]
      simp only [processLoop, hallocEq]
      refine ⟨ih1, by simpa using ih2, ?_, ?_, ?_, ?_, ?_, ?_⟩
      · intro hcomp
        simp only [List.length_cons]
        rw [ih3 (by simpa using hcomp)]
      · simp only [List.length_cons]
        rw [ih4, htm2, hcnt2]
        omega
      · intro k hk
        simp only [List.mem_cons] at hk
        rcases hk with rfl | hk
        · exact ⟨t, List.mem_cons_self _ _, rfl⟩
        · obtain ⟨t', ht', hkt⟩ := ih5 k hk
          exact ⟨t', List.mem_cons_of_mem _ ht', hkt⟩
      · rw [List.nodup_cons]
        refine ⟨?_, ih6⟩
        intro hc
        obtain ⟨t', ht', hkt⟩ := ih5 _ hc
        apply hndhead
        have htx : t.tx = t'.tx := congrArg TileKey.tx hkt
        have hty : t.ty = t'.ty := congrArg TileKey.ty hkt
        exact List.mem_map.mpr ⟨t', ht', by rw [htx, hty]⟩
      · intro k hk
        simp only [List.mem_cons] at hk
        rcases hk with rfl | hk
        · rw [ih8 _ _ hget2]
          rfl
        · exact ih7 k hk
      · intro k v hv
        apply ih8
        rw [htm2, hused2]
        exact mapGet_append_left _ hv

/-- Claim C2: when any decoded tile fails to obtain a slot
(`complete = false`), the load-completion step stores nothing and frees every
tile key allocated during the load, returning the allocator's used count to
its pre-load value; when every tile obtains a slot, the entry is stored for
`(image, lod)` with instance list and tile-key list of equal length (one per
decoded tile).  Hypotheses: the allocator is well-formed, the load's tile
keys are not yet allocated (the coordinator only loads pairs that are neither
cached nor loading, and eviction/rollback frees their keys), and the decoded
tile grid has no duplicate `(tx, ty)`. -/
theorem c2_partial_load_rollback (st : TileDataStore) (tm : SlotAllocator TileKey)
    (data : DecodeResult) (imageX imageY rotation scale cosr sinr : ℚ)
    (hWF : SlotAllocator.WF tm)
    (hfresh : ∀ t ∈ data.tiles,
      mapGet tm.usedSlots (TileKey.mk data.imageIndex data.lodLevel t.tx t.ty) = none)
    (hnd : (data.tiles.map (fun t => (t.tx, t.ty))).Nodup) :
    ((processTiles data tm imageX imageY rotation scale cosr sinr).1.instances.length
      = (processTiles data tm imageX imageY rotation scale cosr
          sinr).1.tileKeyList.length) ∧
    ((processTiles data tm imageX imageY rotation scale cosr sinr).1.complete = false →
      (applyLoadResult st tm data imageX imageY rotation scale cosr sinr).1 = st ∧
      (applyLoadResult st tm data imageX imageY rotation scale cosr
        sinr).2.getUsedCount = tm.getUsedCount) ∧
    ((processTiles data tm imageX imageY rotation scale cosr sinr).1.complete = true →
      (processTiles data tm imageX imageY rotation scale cosr sinr).1.tileKeyList.length
        = data.tiles.length ∧
      (applyLoadResult st tm data imageX imageY rotation scale cosr sinr).1.get
          data.imageIndex data.lodLevel
        = some (processTiles data tm imageX imageY rotation scale cosr sinr).1.instances ∧
      (mapGet (applyLoadResult st tm data imageX imageY rotation scale cosr
          sinr).1.tileKeys data.imageIndex).bind (fun m => mapGet m data.lodLevel)
        = some (processTiles data tm imageX imageY rotation scale cosr
            sinr).1.tileKeyList) := by
  obtain ⟨h1, h2, h3, h4, h5, h6, h7, h8⟩ := processLoop_spec data.imageIndex data.lodLevel
    (data.tileWorldSize * scale) imageX imageY rotation scale cosr sinr data.tiles tm
    hWF hfresh hnd
  refine ⟨h2, ?_, ?_⟩
  · intro hcomp
    have happ : applyLoadResult st tm data imageX imageY rotation scale cosr sinr
        = (st, (processTiles data tm imageX imageY rotation scale cosr
            sinr).1.tileKeyList.foldl SlotAllocator.free
              (processTiles data tm imageX imageY rotation scale cosr sinr).2) := by
      rw [applyLoadResult, hcomp]
      simp
    rw [happ]
    refine ⟨rfl, ?_⟩
    obtain ⟨-, hcnt⟩ := SlotAllocator.foldl_free_spec
      (processTiles data tm imageX imageY rotation scale cosr sinr).1.tileKeyList
      (processTiles data tm imageX imageY rotation scale cosr sinr).2 h1 h6 h7
    show ((processTiles data tm imageX imageY rotation scale cosr
        sinr).1.tileKeyList.foldl SlotAllocator.free
          (processTiles data tm imageX imageY rotation scale cosr
            sinr).2).getUsedCount = tm.getUsedCount
    simp only [processTiles] at hcnt h4 ⊢
    omega
  · intro hcomp
    have happ : applyLoadResult st tm data imageX imageY rotation scale cosr sinr
        = (st.set data.imageIndex data.lodLevel
            (processTiles data tm imageX imageY rotation scale cosr sinr).1.instances
            (some (processTiles data tm imageX imageY rotation scale cosr
              sinr).1.tileKeyList),
           (processTiles data tm imageX imageY rotation scale cosr sinr).2) := by
      rw [applyLoadResult, hcomp]
      simp
    rw [happ]
    obtain ⟨hget, htks⟩ := TileDataStore.set_get_self st data.imageIndex data.lodLevel
      (processTiles data tm imageX imageY rotation scale cosr sinr).1.instances
      (processTiles data tm imageX imageY rotation scale cosr sinr).1.tileKeyList
    exact ⟨h3 (by simpa [processTiles] using hcomp), hget, htks⟩

/-- Witness for C2: a two-tile decode result processed against a fresh 2-layer
2×2 allocator. -/
theorem c2_partial_load_rollback_witness :
    ((processTiles (DecodeResult.mk 0 1 2 [DecodeTileInfo.mk 0 0 2 2, DecodeTileInfo.mk 1 0 2 2])
        (SlotAllocator.init 2 2) 0 0 0 1 1 0).1.instances.length
      = (processTiles (DecodeResult.mk 0 1 2 [DecodeTileInfo.mk 0 0 2 2, DecodeTileInfo.mk 1 0 2 2])
          (SlotAllocator.init 2 2) 0 0 0 1 1 0).1.tileKeyList.length) ∧
    ((processTiles (DecodeResult.mk 0 1 2 [DecodeTileInfo.mk 0 0 2 2, DecodeTileInfo.mk 1 0 2 2])
        (SlotAllocator.init 2 2) 0 0 0 1 1 0).1.complete = false →
      (applyLoadResult (TileDataStore.initStore 4) (SlotAllocator.init 2 2)
          (DecodeResult.mk 0 1 2 [DecodeTileInfo.mk 0 0 2 2, DecodeTileInfo.mk 1 0 2 2])
          0 0 0 1 1 0).1 = TileDataStore.initStore 4 ∧
      (applyLoadResult (TileDataStore.initStore 4) (SlotAllocator.init 2 2)
          (DecodeResult.mk 0 1 2 [DecodeTileInfo.mk 0 0 2 2, DecodeTileInfo.mk 1 0 2 2])
          0 0 0 1 1 0).2.getUsedCount = (SlotAllocator.init 2 2 : SlotAllocator TileKey).getUsedCount) ∧
    ((processTiles (DecodeResult.mk 0 1 2 [DecodeTileInfo.mk 0 0 2 2, DecodeTileInfo.mk 1 0 2 2])
        (SlotAllocator.init 2 2) 0 0 0 1 1 0).1.complete = true →
      (processTiles (DecodeResult.mk 0 1 2 [DecodeTileInfo.mk 0 0 2 2, DecodeTileInfo.mk 1 0 2 2])
        (SlotAllocator.init 2 2) 0 0 0 1 1 0).1.tileKeyList.length
        = (DecodeResult.mk 0 1 2 [DecodeTileInfo.mk 0 0 2 2, DecodeTileInfo.mk 1 0 2 2]).tiles.length ∧
      (applyLoadResult (TileDataStore.initStore 4) (SlotAllocator.init 2 2)
          (DecodeResult.mk 0 1 2 [DecodeTileInfo.mk 0 0 2 2, DecodeTileInfo.mk 1 0 2 2])
          0 0 0 1 1 0).1.get 0 1
        = some (processTiles
            (DecodeResult.mk 0 1 2 [DecodeTileInfo.mk 0 0 2 2, DecodeTileInfo.mk 1 0 2 2])
            (SlotAllocator.init 2 2) 0 0 0 1 1 0).1.instances ∧
      (mapGet (applyLoadResult (TileDataStore.initStore 4) (SlotAllocator.init 2 2)
          (DecodeResult.mk 0 1 2 [DecodeTileInfo.mk 0 0 2 2, DecodeTileInfo.mk 1 0 2 2])
          0 0 0 1 1 0).1.tileKeys 0).bind (fun m => mapGet m 1)
        = some (processTiles
            (DecodeResult.mk 0 1 2 [DecodeTileInfo.mk 0 0 2 2, DecodeTileInfo.mk 1 0 2 2])
            (SlotAllocator.init 2 2) 0 0 0 1 1 0).1.tileKeyList) :=
  c2_partial_load_rollback (TileDataStore.initStore 4) (SlotAllocator.init 2 2)
    (DecodeResult.mk 0 1 2 [DecodeTileInfo.mk 0 0 2 2, DecodeTileInfo.mk 1 0 2 2])
    0 0 0 1 1 0 (SlotAllocator.init_WF 2 2) (by decide) (by decide)

/-! ## Claim C1 — `evictStale`: entry removal and `has` -/

theorem mapGet_mapUpdate_ne {κ ν : Type} [DecidableEq κ] (m : List (κ × ν)) {k k' : κ}
    (f : ν → ν) (h : k' ≠ k) : mapGet (mapUpdate m k f) k' = mapGet m k' := by
  induction m with
  | nil => rfl
  | cons e rest ih =>
    by_cases he : e.1 = k
    · have hne : e.1 ≠ k' := fun hc => h (by rw [← hc, he])
      simp only [mapUpdate, List.map_cons, if_pos he]
      rw [mapGet_cons, mapGet_cons]
      simp only [if_neg hne]
      simpa [mapUpdate] using ih
    · simp only [mapUpdate, List.map_cons, if_neg he]
      rw [mapGet_cons, mapGet_cons]
      by_cases he' : e.1 = k'
      · simp [he']
      · rw [if_neg he', if_neg he']
        simpa [mapUpdate] using ih

theorem mapHas_mapDelete_self {κ ν : Type} [DecidableEq κ] (m : List (κ × ν)) (k : κ) :
    mapHas (mapDelete m k) k = false := by
  simp [mapHas, mapGet_mapDelete_self]

theorem mapHas_mapDelete_ne {κ ν : Type} [DecidableEq κ] (m : List (κ × ν)) {k k' : κ}
    (h : k' ≠ k) : mapHas (mapDelete m k) k' = mapHas m k' := by
  simp [mapHas, mapGet_mapDelete_ne _ h]

/-- If deleting key `k` empties the map, no other key was present. -/
theorem mapHas_of_mapDelete_nil {κ ν : Type} [DecidableEq κ] {m : List (κ × ν)} {k k' : κ}
    (h : mapDelete m k = []) (hne : k' ≠ k) : mapHas m k' = false := by
  rw [← mapHas_mapDelete_ne m hne, h]
  rfl

namespace TileDataStore

/-- Removing one candidate's entry removes exactly that `(image, lod)` pair
from the store's cache. -/
theorem removeCandidate_has (st : TileDataStore) (c : Candidate) (i l : Nat) :
    ((removeCandidate st c).has i l = true)
      ↔ (st.has i l = true ∧ ¬ (i = c.imageIndex ∧ l = c.lodLevel)) := by
  have hdat_self : mapGet (mapUpdate st.data c.imageIndex (fun m => mapDelete m c.lodLevel))
      c.imageIndex = (mapGet st.data c.imageIndex).map (fun m => mapDelete m c.lodLevel) :=
    mapGet_mapUpdate_self _ _ _
  have hdat_ne : ∀ j, j ≠ c.imageIndex →
      mapGet (mapUpdate st.data c.imageIndex (fun m => mapDelete m c.lodLevel)) j
        = mapGet st.data j := fun j hj => mapGet_mapUpdate_ne _ _ hj
  set dat := mapUpdate st.data c.imageIndex (fun m => mapDelete m c.lodLevel) with hdatdef
  have hdata : (removeCandidate st c).data
      = if (mapGet dat c.imageIndex).map List.length = some 0
        then mapDelete dat c.imageIndex else dat := by
    by_cases hcol : (mapGet dat c.imageIndex).map List.length = some 0 <;>
      cases hk : c.keys <;> simp [removeCandidate, ← hdatdef, hk, hcol]
  have hhas : (removeCandidate st c).has i l
      = (match mapGet (removeCandidate st c).data i with
         | some lodMap => mapHas lodMap l
         | none => false) := rfl
  rw [hhas, hdata]
  by_cases hcol : (mapGet dat c.imageIndex).map List.length = some 0
  · rw [if_pos hcol]
    by_cases hi : i = c.imageIndex
    · subst hi
      rw [mapGet_mapDelete_self]
      simp only [Option.map_eq_some'] at hcol
      obtain ⟨mm, hmm, hlen⟩ := hcol
      rw [hdat_self] at hmm
      simp only [Option.map_eq_some'] at hmm
      obtain ⟨lodMap, hget, hdel⟩ := hmm
      have hnil : mapDelete lodMap c.lodLevel = [] := by
        rw [hdel]
        exact List.length_eq_zero.mp hlen
      constructor
      · intro hf
        simp at hf
      · rintro ⟨hhas2, hne⟩
        by_cases hl : l = c.lodLevel
        · exact absurd ⟨rfl, hl⟩ hne
        · have := mapHas_of_mapDelete_nil hnil hl
          simp [has, hget, this] at hhas2
    · rw [mapGet_mapDelete_ne _ hi, hdat_ne i hi]
      simp only [has]
      constructor
      · intro h
        exact ⟨h, fun hc => hi hc.1⟩
      · rintro ⟨h, -⟩
        exact h
  · rw [if_neg hcol]
    by_cases hi : i = c.imageIndex
    · subst hi
      rw [hdat_self]
      rcases hget : mapGet st.data c.imageIndex with - | lodMap
      · simp [has, hget]
      · simp only [Option.map_some']
        by_cases hl : l = c.lodLevel
        · subst hl
          simp [has, hget, mapHas_mapDelete_self]
        · rw [mapHas_mapDelete_ne _ hl]
          simp [has, hget, hl]
    · rw [hdat_ne i hi]
      simp only [has]
      constructor
      · intro h
        exact ⟨h, fun hc => hi hc.1⟩
      · rintro ⟨h, -⟩
        exact h

/-- `has` after folding `removeCandidate` over a list of candidates. -/
theorem foldl_removeCandidate_has (cands : List Candidate) (st : TileDataStore) (i l : Nat) :
    ((cands.foldl removeCandidate st).has i l = true)
      ↔ (st.has i l = true ∧ ∀ c ∈ cands, ¬ (i = c.imageIndex ∧ l = c.lodLevel)) := by
  induction cands generalizing st with
  | nil => simp
  | cons c cs ih =>
    rw [List.foldl_cons, ih, removeCandidate_has]
    constructor
    · rintro ⟨⟨h1, h2⟩, h3⟩
      refine ⟨h1, ?_⟩
      intro c' hc'
      rcases List.mem_cons.mp hc' with rfl | hmem
      · exact h2
      · exact h3 c' hmem
    · rintro ⟨h1, h2⟩
      exact ⟨⟨h1, h2 c (List.mem_cons_self _ _)⟩,
        fun c' hc' => h2 c' (List.mem_cons_of_mem _ hc')⟩

end TileDataStore
/-! ## Claim C1 — the stable ascending sort as priority buckets -/

namespace TileDataStore

/-- The stable ascending order on candidates: all priority-0 candidates in
enumeration order, then priority-1, then priority-2. `Array.prototype.sort`
with comparator `a.priority - b.priority` (a stable sort) produces exactly
this list when every priority is in `{0, 1, 2}`. -/
def stableByPriority (cands : List Candidate) : List Candidate :=
  cands.filter (fun c => c.priority = 0) ++ cands.filter (fun c => c.priority = 1)
    ++ cands.filter (fun c => c.priority = 2)

theorem orderedInsert_le_head (c : Candidate) (l : List Candidate)
    (h : ∀ x ∈ l, c.priority ≤ x.priority) :
    List.orderedInsert (fun a b => a.priority ≤ b.priority) c l = c :: l := by
  cases l with
  | nil => rfl
  | cons x xs =>
    rw [List.orderedInsert, if_pos (h x (List.mem_cons_self _ _))]

theorem orderedInsert_append_gt (c : Candidate) (l₁ l₂ : List Candidate)
    (h : ∀ x ∈ l₁, ¬ c.priority ≤ x.priority) :
    List.orderedInsert (fun a b => a.priority ≤ b.priority) c (l₁ ++ l₂)
      = l₁ ++ List.orderedInsert (fun a b => a.priority ≤ b.priority) c l₂ := by
  induction l₁ with
  | nil => rfl
  | cons x xs ih =>
    rw [List.cons_append, List.orderedInsert, if_neg (h x (List.mem_cons_self _ _)),
      List.cons_append, ih (fun y hy => h y (List.mem_cons_of_mem _ hy))]

/-- The stable insertion sort by ascending priority equals the bucket
concatenation when every priority is at most 2. -/
theorem insertionSort_eq_stableByPriority (cands : List Candidate)
    (h : ∀ c ∈ cands, c.priority ≤ 2) :
    cands.insertionSort (fun a b => a.priority ≤ b.priority) = stableByPriority cands := by
  induction cands with
  | nil => rfl
  | cons c cs ih =>
    rw [List.insertionSort, ih (fun x hx => h x (List.mem_cons_of_mem _ hx))]
    have hc := h c (List.mem_cons_self _ _)
    have hmem0 : ∀ x ∈ cs.filter (fun c => c.priority = 0), x.priority = 0 := by
      intro x hx
      simpa using (List.mem_filter.mp hx).2
    have hmem1 : ∀ x ∈ cs.filter (fun c => c.priority = 1), x.priority = 1 := by
      intro x hx
      simpa using (List.mem_filter.mp hx).2
    have hmem2 : ∀ x ∈ cs.filter (fun c => c.priority = 2), x.priority = 2 := by
      intro x hx
      simpa using (List.mem_filter.mp hx).2
    have hp : c.priority = 0 ∨ c.priority = 1 ∨ c.priority = 2 := by omega
    rcases hp with hp | hp | hp
    · rw [stableByPriority, orderedInsert_le_head c _ (fun x hx => by rw [hp]; exact Nat.zero_le _)]
      rw [stableByPriority]
      simp [List.filter_cons, hp, List.append_assoc]
    · rw [stableByPriority, List.append_assoc,
        orderedInsert_append_gt c _ _ (fun x hx => by rw [hmem0 x hx, hp]; omega),
        orderedInsert_le_head c _ (fun x hx => by
          rcases List.mem_append.mp hx with hx1 | hx2
          · rw [hmem1 x hx1, hp]
          · rw [hmem2 x hx2, hp]; omega)]
      rw [stableByPriority]
      simp [List.filter_cons, hp, List.append_assoc]
    · rw [stableByPriority,
        orderedInsert_append_gt c _ _ (fun x hx => by
          rcases List.mem_append.mp hx with hx1 | hx2
          · rw [hmem0 x hx1, hp]; omega
          · rw [hmem1 x hx2, hp]; omega),
        orderedInsert_le_head c _ (fun x hx => by rw [hmem2 x hx, hp])]
      rw [stableByPriority]
      simp [List.filter_cons, hp, List.append_assoc]

/-- Membership in the buckets is membership in the candidate list. -/
theorem mem_stableByPriority (cands : List Candidate) (c : Candidate)
    (h : c ∈ stableByPriority cands) : c ∈ cands := by
  rw [stableByPriority] at h
  rcases List.mem_append.mp h with h1 | h2
  · rcases List.mem_append.mp h1 with h3 | h4
    · exact List.mem_of_mem_filter h3
    · exact List.mem_of_mem_filter h4
  · exact List.mem_of_mem_filter h2

end TileDataStore
/-! ## Claim C1 — the eviction loop -/

namespace TileDataStore

/-- Characterisation of `evictLoop`: it removes exactly a prefix of the
candidate list, stops once the tracked free count reaches the target, and
keeps going while it has not. -/
theorem evictLoop_char (target : Nat) (B : List Candidate) (st : TileDataStore)
    (tm : SlotAllocator TileKey) (free0 : Nat) :
    ∃ k, k ≤ B.length ∧
      evictLoop target B st tm free0
        = ((B.take k).foldl removeCandidate st, (B.take k).foldl freeCandidateKeys tm) ∧
      (∀ j < k, free0 + (((B.take j).map (fun c => c.tileCount)).sum) < target) ∧
      (k < B.length → target ≤ free0 + (((B.take k).map (fun c => c.tileCount)).sum)) := by
  induction B generalizing st tm free0 with
  | nil =>
    refine ⟨0, Nat.le_refl 0, ?_, by omega, by intro h; simp at h⟩
    simp [evictLoop]
  | cons c cs ih =>
    by_cases hstop : target ≤ free0
    · refine ⟨0, Nat.zero_le _, ?_, by omega, fun _ => by simpa using hstop⟩
      simp only [evictLoop, if_pos hstop]
      simp
    · obtain ⟨k, hk, heq, hstopj, hstopk⟩ := ih (removeCandidate st c)
        (freeCandidateKeys tm c) (free0 + c.tileCount)
      refine ⟨k + 1, by simpa using hk, ?_, ?_, ?_⟩
      · simp only [evictLoop, if_neg hstop]
        rw [heq]
        simp [List.take_succ_cons]
      · intro j hj
        cases j with
        | zero => simpa using Nat.lt_of_not_le hstop
        | succ j' =>
          have hj' : j' < k := by omega
          have := hstopj j' hj'
          simp only [List.take_succ_cons, List.map_cons, List.sum_cons]
          omega
      · intro hlen
        have hklen : k < cs.length := by simpa using hlen
        have := hstopk hklen
        simp only [List.take_succ_cons, List.map_cons, List.sum_cons]
        omega

end TileDataStore

namespace SlotAllocator

theorem freeKeys_usedCount_le (ks : List TileKey) (tm : SlotAllocator TileKey) :
    (TileDataStore.freeKeys tm ks).getUsedCount ≤ tm.getUsedCount := by
  induction ks generalizing tm with
  | nil => exact Nat.le_refl _
  | cons k rest ih =>
    calc (TileDataStore.freeKeys (tm.free k) rest).getUsedCount
        ≤ (tm.free k).getUsedCount := ih _
      _ ≤ tm.getUsedCount := free_usedCount_le tm k

theorem freeCandidateKeys_usedCount_le (tm : SlotAllocator TileKey)
    (c : TileDataStore.Candidate) :
    (TileDataStore.freeCandidateKeys tm c).getUsedCount ≤ tm.getUsedCount := by
  rcases hk : c.keys with - | ks
  · simp [TileDataStore.freeCandidateKeys, hk]
  · simp only [TileDataStore.freeCandidateKeys, hk]
    exact freeKeys_usedCount_le ks tm

theorem foldl_freeCandidateKeys_usedCount_le (cs : List TileDataStore.Candidate)
    (tm : SlotAllocator TileKey) :
    (cs.foldl TileDataStore.freeCandidateKeys tm).getUsedCount ≤ tm.getUsedCount := by
  induction cs generalizing tm with
  | nil => exact Nat.le_refl _
  | cons c rest ih =>
    calc (List.foldl TileDataStore.freeCandidateKeys
          (TileDataStore.freeCandidateKeys tm c) rest).getUsedCount
        ≤ (TileDataStore.freeCandidateKeys tm c).getUsedCount := ih _
      _ ≤ tm.getUsedCount := freeCandidateKeys_usedCount_le tm c

theorem free_usedCount_lt (a : SlotAllocator TileKey) (k : TileKey) (hWF : WF a)
    (h : (mapGet a.usedSlots k).isSome) : (a.free k).getUsedCount < a.getUsedCount := by
  rw [Option.isSome_iff_exists] at h
  obtain ⟨s, hs⟩ := h
  obtain ⟨-, -, hcnt⟩ := free_present_spec a k hWF hs
  omega

theorem freeKeys_usedCount_lt (tm : SlotAllocator TileKey) (ks : List TileKey)
    (hWF : WF tm) (hne : ks ≠ [])
    (hlive : ∀ k ∈ ks, (mapGet tm.usedSlots k).isSome) :
    (TileDataStore.freeKeys tm ks).getUsedCount < tm.getUsedCount := by
  cases ks with
  | nil => exact absurd rfl hne
  | cons k rest =>
    have hstrict : (tm.free k).getUsedCount < tm.getUsedCount :=
      free_usedCount_lt tm k hWF (hlive k (List.mem_cons_self _ _))
    calc (TileDataStore.freeKeys (tm.free k) rest).getUsedCount
        ≤ (tm.free k).getUsedCount := freeKeys_usedCount_le rest _
      _ < tm.getUsedCount := hstrict

theorem usedCount_le_totalSlots (a : SlotAllocator TileKey) (hWF : WF a) :
    a.getUsedCount ≤ a.getTotalSlots := by
  obtain ⟨hlen, hsub, -, -, -, -, -⟩ := hWF
  have hall : ∀ x ∈ a.layerSlots, x.card ≤ a.tilesPerLayer := by
    intro x hx
    have := Finset.card_le_card (hsub x hx)
    simpa using this
  have := sum_card_le a.layerSlots a.tilesPerLayer hall
  rw [getUsedCount, getTotalSlots, ← hlen]
  exact this

end SlotAllocator
/-- The stably-sorted candidate list that `evictStale` processes. -/
def evictCandidatesOf (st : TileDataStore) (renderedSet : List (Nat × Nat))
    (visibleImages : List Nat) : List TileDataStore.Candidate :=
  TileDataStore.stableByPriority (st.buildCandidates renderedSet visibleImages)

/-- Claim C1: `evictStale` never removes a cached pair that is rendered or
loading; it removes exactly a prefix of the candidates in ascending priority
order, stable within equal priority (`evictCandidatesOf` lists the priority-0
candidates in enumeration order, then priority-1, then priority-2), stopping
as soon as the tracked free-slot count reaches `targetFreeSlots`; and if any
non-rendered non-loading cached pair existed, the number of free atlas slots
afterwards either reached the target or strictly grew.  Hypotheses: the
allocator is well-formed and every cached entry's tile-key list is present,
non-empty and live in the allocator (the spec's Image Entry invariant). -/
theorem c1_evictStale_spec (st : TileDataStore) (renderedSet : List (Nat × Nat))
    (tm : SlotAllocator TileKey) (visibleImages : List Nat) (targetFreeSlots : Nat)
    (hWFtm : SlotAllocator.WF tm)
    (hlive : ∀ ent ∈ st.data, ∀ lent ∈ ent.2,
      (((mapGet st.tileKeys ent.1).bind (fun m => mapGet m lent.1)).isSome = true) ∧
      ((mapGet st.tileKeys ent.1).bind (fun m => mapGet m lent.1)).getD [] ≠ [] ∧
      (∀ k ∈ ((mapGet st.tileKeys ent.1).bind (fun m => mapGet m lent.1)).getD [],
        (mapGet tm.usedSlots k).isSome = true)) :
    ∃ k ≤ (evictCandidatesOf st renderedSet visibleImages).length,
      ((st.evictStale renderedSet tm visibleImages targetFreeSlots).1
          = (((evictCandidatesOf st renderedSet visibleImages).take k).foldl
              TileDataStore.removeCandidate st) ∧
       (st.evictStale renderedSet tm visibleImages targetFreeSlots).2
          = (((evictCandidatesOf st renderedSet visibleImages).take k).foldl
              TileDataStore.freeCandidateKeys tm)) ∧
      (∀ j < k, tm.getTotalSlots - tm.getUsedCount
          + ((((evictCandidatesOf st renderedSet visibleImages).take j).map
              (fun c => c.tileCount)).sum) < targetFreeSlots) ∧
      (k < (evictCandidatesOf st renderedSet visibleImages).length →
        targetFreeSlots ≤ tm.getTotalSlots - tm.getUsedCount
          + ((((evictCandidatesOf st renderedSet visibleImages).take k).map
              (fun c => c.tileCount)).sum)) ∧
      (∀ i l, ((st.evictStale renderedSet tm visibleImages targetFreeSlots).1.has i l = true)
        ↔ (st.has i l = true ∧
            ∀ c ∈ (evictCandidatesOf st renderedSet visibleImages).take k,
              ¬ (i = c.imageIndex ∧ l = c.lodLevel))) ∧
      (∀ i l, st.has i l = true → ((i, l) ∈ renderedSet ∨ st.isLoading i l = true) →
        (st.evictStale renderedSet tm visibleImages targetFreeSlots).1.has i l = true) ∧
      ((∃ i l, st.has i l = true ∧ (i, l) ∉ renderedSet ∧ ¬ st.isLoading i l = true) →
        (targetFreeSlots ≤ tm.getTotalSlots
            - (st.evictStale renderedSet tm visibleImages targetFreeSlots).2.getUsedCount ∨
         tm.getTotalSlots
            - (st.evictStale renderedSet tm visibleImages targetFreeSlots).2.getUsedCount
          > tm.getTotalSlots - tm.getUsedCount)) := by
  set cands := st.buildCandidates renderedSet visibleImages with hcands
  have hple : ∀ c ∈ cands, c.priority ≤ 2 := by
    intro c hc
    obtain ⟨-, -, hpri, -⟩ := mem_buildCandidates_elim st renderedSet visibleImages hc
    rw [hpri]
    by_cases hv : c.imageIndex ∈ visibleImages
    · simp [hv]
    · by_cases ht : mapGet st.requestedLod c.imageIndex = some c.lodLevel <;> simp [hv, ht]
  have hsort : cands.insertionSort (fun a b => a.priority ≤ b.priority)
      = TileDataStore.stableByPriority cands :=
    TileDataStore.insertionSort_eq_stableByPriority cands hple
  have hB : evictCandidatesOf st renderedSet visibleImages
      = TileDataStore.stableByPriority cands := rfl
  have hev : st.evictStale renderedSet tm visibleImages targetFreeSlots
      = TileDataStore.evictLoop targetFreeSlots (TileDataStore.stableByPriority cands) st tm
          (tm.getTotalSlots - tm.getUsedCount) := by
    simp only [TileDataStore.evictStale, ← hcands, hsort]
  obtain ⟨k, hk, heq, hstopj, hstopk⟩ := TileDataStore.evictLoop_char targetFreeSlots
    (TileDataStore.stableByPriority cands) st tm (tm.getTotalSlots - tm.getUsedCount)
  have htake_mem : ∀ c ∈ (TileDataStore.stableByPriority cands).take k, c ∈ cands :=
    fun c hc => TileDataStore.mem_stableByPriority cands c (List.take_subset _ _ hc)
  refine ⟨k, by rw [hB]; exact hk, ?_, ?_, ?_, ?_, ?_, ?_⟩
  · rw [hB, hev, heq]
    exact ⟨rfl, rfl⟩
  · rw [hB]
    exact hstopj
  · rw [hB]
    exact hstopk
  · intro i l
    rw [hB, hev, heq]
    exact TileDataStore.foldl_removeCandidate_has _ st i l
  · intro i l hhas hguard
    rw [hev, heq]
    rw [TileDataStore.foldl_removeCandidate_has]
    refine ⟨hhas, ?_⟩
    intro c hc hpair
    obtain ⟨hnr, hnl, -⟩ := mem_buildCandidates_elim st renderedSet visibleImages
      (htake_mem c hc)
    obtain ⟨rfl, rfl⟩ := hpair
    rcases hguard with hg | hg
    · exact hnr hg
    · exact hnl hg
  · rintro ⟨i, l, hhas, hnr, hnl⟩
    obtain ⟨c₀, hc₀, -, -⟩ := mem_buildCandidates_intro st renderedSet visibleImages
      hhas hnr hnl
    have hBne : 0 < (TileDataStore.stableByPriority cands).length := by
      rcases hBnil : TileDataStore.stableByPriority cands with - | ⟨c', cs'⟩
      · exfalso
        have hp2 := hple c₀ hc₀
        have hp : c₀.priority = 0 ∨ c₀.priority = 1 ∨ c₀.priority = 2 := by omega
        have hfmem : c₀ ∈ TileDataStore.stableByPriority cands := by
          rw [TileDataStore.stableByPriority]
          rcases hp with hp | hp | hp
          · exact List.mem_append_left _ (List.mem_append_left _
              (List.mem_filter.mpr ⟨hc₀, by simp [hp]⟩))
          · exact List.mem_append_left _ (List.mem_append_right _
              (List.mem_filter.mpr ⟨hc₀, by simp [hp]⟩))
          · exact List.mem_append_right _ (List.mem_filter.mpr ⟨hc₀, by simp [hp]⟩)
        rw [hBnil] at hfmem
        simp at hfmem
      · simp [hBnil]
    rw [hev, heq]
    cases k with
    | zero =>
      left
      have := hstopk hBne
      simpa using this
    | succ k' =>
      right
      rcases hBnil : TileDataStore.stableByPriority cands with - | ⟨chead, ctail⟩
      · rw [hBnil] at hBne
        simp at hBne
      · have hheadmem : chead ∈ cands := by
          apply TileDataStore.mem_stableByPriority
          rw [hBnil]
          exact List.mem_cons_self _ _
        obtain ⟨-, -, -, hkeys, -, lodMap, hentmem, v, hlentmem⟩ :=
          mem_buildCandidates_elim st renderedSet visibleImages hheadmem
        obtain ⟨hsome, hne, hliveks⟩ := hlive (chead.imageIndex, lodMap) hentmem
          (chead.lodLevel, v) hlentmem
        simp only at hsome hne hliveks
        rw [Option.isSome_iff_exists] at hsome
        obtain ⟨ks, hks⟩ := hsome
        rw [hks, Option.getD_some] at hne hliveks
        have hckeys : chead.keys = some ks := by rw [hkeys, hks]
        have hstrict : (TileDataStore.freeCandidateKeys tm chead).getUsedCount
            < tm.getUsedCount := by
          simp only [TileDataStore.freeCandidateKeys, hckeys]
          exact SlotAllocator.freeKeys_usedCount_lt tm ks hWFtm hne hliveks
        have hmono : ((List.take (k' + 1) (chead :: ctail)).foldl
            TileDataStore.freeCandidateKeys tm).getUsedCount < tm.getUsedCount := by
          rw [List.take_succ_cons, List.foldl_cons]
          calc (List.foldl TileDataStore.freeCandidateKeys
                (TileDataStore.freeCandidateKeys tm chead) (ctail.take k')).getUsedCount
              ≤ (TileDataStore.freeCandidateKeys tm chead).getUsedCount :=
                SlotAllocator.foldl_freeCandidateKeys_usedCount_le _ _
            _ < tm.getUsedCount := hstrict
        have hletotal := SlotAllocator.usedCount_le_totalSlots tm hWFtm
        have hsnd : ((List.take (k' + 1) (chead :: ctail)).foldl
              TileDataStore.removeCandidate st,
            (List.take (k' + 1) (chead :: ctail)).foldl
              TileDataStore.freeCandidateKeys tm).2
            = (List.take (k' + 1) (chead :: ctail)).foldl
                TileDataStore.freeCandidateKeys tm := rfl
        rw [hsnd]
        omega

/-- Witness for C1: a store caching one entry for (image 0, lod 0) with one
live tile key, against the allocator holding that key. -/
theorem c1_evictStale_spec_witness :
    ∃ k ≤ (evictCandidatesOf ((TileDataStore.initStore 4).set 0 0 [] (some [TileKey.mk 0 0 0 0])) ([] : List (Nat × Nat)) ([] : List Nat)).length,
      (((((TileDataStore.initStore 4).set 0 0 [] (some [TileKey.mk 0 0 0 0])).evictStale ([] : List (Nat × Nat)) ((SlotAllocator.init 1 2 : SlotAllocator TileKey).allocate (TileKey.mk 0 0 0 0)).2 ([] : List Nat) 4).1
          = ((evictCandidatesOf ((TileDataStore.initStore 4).set 0 0 [] (some [TileKey.mk 0 0 0 0])) ([] : List (Nat × Nat)) ([] : List Nat)).take k).foldl TileDataStore.removeCandidate ((TileDataStore.initStore 4).set 0 0 [] (some [TileKey.mk 0 0 0 0])) ∧
        (((TileDataStore.initStore 4).set 0 0 [] (some [TileKey.mk 0 0 0 0])).evictStale ([] : List (Nat × Nat)) ((SlotAllocator.init 1 2 : SlotAllocator TileKey).allocate (TileKey.mk 0 0 0 0)).2 ([] : List Nat) 4).2
          = ((evictCandidatesOf ((TileDataStore.initStore 4).set 0 0 [] (some [TileKey.mk 0 0 0 0])) ([] : List (Nat × Nat)) ([] : List Nat)).take k).foldl TileDataStore.freeCandidateKeys ((SlotAllocator.init 1 2 : SlotAllocator TileKey).allocate (TileKey.mk 0 0 0 0)).2) ∧
      (∀ j < k, ((SlotAllocator.init 1 2 : SlotAllocator TileKey).allocate (TileKey.mk 0 0 0 0)).2.getTotalSlots - ((SlotAllocator.init 1 2 : SlotAllocator TileKey).allocate (TileKey.mk 0 0 0 0)).2.getUsedCount
          + ((((evictCandidatesOf ((TileDataStore.initStore 4).set 0 0 [] (some [TileKey.mk 0 0 0 0])) ([] : List (Nat × Nat)) ([] : List Nat)).take j).map (fun c => c.tileCount)).sum) < 4) ∧
      (k < (evictCandidatesOf ((TileDataStore.initStore 4).set 0 0 [] (some [TileKey.mk 0 0 0 0])) ([] : List (Nat × Nat)) ([] : List Nat)).length →
        (4 : Nat) ≤ ((SlotAllocator.init 1 2 : SlotAllocator TileKey).allocate (TileKey.mk 0 0 0 0)).2.getTotalSlots - ((SlotAllocator.init 1 2 : SlotAllocator TileKey).allocate (TileKey.mk 0 0 0 0)).2.getUsedCount
          + ((((evictCandidatesOf ((TileDataStore.initStore 4).set 0 0 [] (some [TileKey.mk 0 0 0 0])) ([] : List (Nat × Nat)) ([] : List Nat)).take k).map (fun c => c.tileCount)).sum)) ∧
      (∀ i l, ((((TileDataStore.initStore 4).set 0 0 [] (some [TileKey.mk 0 0 0 0])).evictStale ([] : List (Nat × Nat)) ((SlotAllocator.init 1 2 : SlotAllocator TileKey).allocate (TileKey.mk 0 0 0 0)).2 ([] : List Nat) 4).1.has i l = true)
        ↔ (((TileDataStore.initStore 4).set 0 0 [] (some [TileKey.mk 0 0 0 0])).has i l = true ∧
            ∀ c ∈ (evictCandidatesOf ((TileDataStore.initStore 4).set 0 0 [] (some [TileKey.mk 0 0 0 0])) ([] : List (Nat × Nat)) ([] : List Nat)).take k,
              ¬ (i = c.imageIndex ∧ l = c.lodLevel))) ∧
      (∀ i l, ((TileDataStore.initStore 4).set 0 0 [] (some [TileKey.mk 0 0 0 0])).has i l = true → ((i, l) ∈ ([] : List (Nat × Nat)) ∨ ((TileDataStore.initStore 4).set 0 0 [] (some [TileKey.mk 0 0 0 0])).isLoading i l = true) →
        (((TileDataStore.initStore 4).set 0 0 [] (some [TileKey.mk 0 0 0 0])).evictStale ([] : List (Nat × Nat)) ((SlotAllocator.init 1 2 : SlotAllocator TileKey).allocate (TileKey.mk 0 0 0 0)).2 ([] : List Nat) 4).1.has i l = true) ∧
      ((∃ i l, ((TileDataStore.initStore 4).set 0 0 [] (some [TileKey.mk 0 0 0 0])).has i l = true ∧ (i, l) ∉ ([] : List (Nat × Nat)) ∧ ¬ ((TileDataStore.initStore 4).set 0 0 [] (some [TileKey.mk 0 0 0 0])).isLoading i l = true) →
        ((4 : Nat) ≤ ((SlotAllocator.init 1 2 : SlotAllocator TileKey).allocate (TileKey.mk 0 0 0 0)).2.getTotalSlots - (((TileDataStore.initStore 4).set 0 0 [] (some [TileKey.mk 0 0 0 0])).evictStale ([] : List (Nat × Nat)) ((SlotAllocator.init 1 2 : SlotAllocator TileKey).allocate (TileKey.mk 0 0 0 0)).2 ([] : List Nat) 4).2.getUsedCount ∨
         ((SlotAllocator.init 1 2 : SlotAllocator TileKey).allocate (TileKey.mk 0 0 0 0)).2.getTotalSlots - (((TileDataStore.initStore 4).set 0 0 [] (some [TileKey.mk 0 0 0 0])).evictStale ([] : List (Nat × Nat)) ((SlotAllocator.init 1 2 : SlotAllocator TileKey).allocate (TileKey.mk 0 0 0 0)).2 ([] : List Nat) 4).2.getUsedCount
          > ((SlotAllocator.init 1 2 : SlotAllocator TileKey).allocate (TileKey.mk 0 0 0 0)).2.getTotalSlots - ((SlotAllocator.init 1 2 : SlotAllocator TileKey).allocate (TileKey.mk 0 0 0 0)).2.getUsedCount))) :=
  c1_evictStale_spec ((TileDataStore.initStore 4).set 0 0 [] (some [TileKey.mk 0 0 0 0])) ([] : List (Nat × Nat)) ((SlotAllocator.init 1 2 : SlotAllocator TileKey).allocate (TileKey.mk 0 0 0 0)).2 ([] : List Nat) 4
    (SlotAllocator.reachable_WF
      (SlotAllocator.Reachable.alloc _ (TileKey.mk 0 0 0 0) SlotAllocator.Reachable.init))
    (by decide)

end TileLod
